import Mathlib

/-!
# Remarker.js — a shallow embedding of `src/remarker.js`

Strings are lists of UTF-16 code units (`Str`), offsets are indices into them.
The module-level variables `source`, `annotatedLines`, `annotationBlocks` and
`lastIndex` become the fields of `State`, threaded explicitly through every
function that reads or writes them.  A JavaScript exception is the `error` side of
`Except JsError`.

Three things the file uses are not part of it and are taken as parameters:
`JSON.parse` (`jsonParse`), the global object `window` (a `Graph` of property
lookups), and the acorn parser (`Acorn`: the comments it reports to `onComment`
and the nodes `acorn.walk.simple` passes to the visitors, each in its order).
-/

namespace Remarker

/-- JavaScript strings, as lists of code units. -/
abbrev Str := List Char

/-- The exceptions the modelled code can raise. -/
inductive JsError where
  | SyntaxError
  | TypeError
  deriving DecidableEq, Repr

/-! ## Regular expressions (lines 51-62) -/

/-- The class `[\n\rU+2028U+2029]`; also the characters `.` does not match. -/
def isLineTerminator (c : Char) : Bool :=
  c = '\n' || c = '\r' || c.toNat = 0x2028 || c.toNat = 0x2029

/-- The class `\s` of ECMAScript regular expressions: white space and line
terminators. -/
def isWhitespace (c : Char) : Bool :=
  c = '\t' || c = '\n' || c = '\x0b' || c = '\x0c' || c = '\r' || c = ' ' ||
  c.toNat = 0x00a0 || c.toNat = 0x1680 || (0x2000 ≤ c.toNat && c.toNat ≤ 0x200a) ||
  c.toNat = 0x2028 || c.toNat = 0x2029 || c.toNat = 0x202f || c.toNat = 0x205f || c.toNat = 0x3000 ||
  c.toNat = 0xfeff

/-- The replacement `text.replace(reMultilineTrim, '')` with
`reMultilineTrim = /\r\n\s*|[\n\rU+2028U+2029]\s*/g`.  The flag says whether the
scan is inside a match, consuming `\s*`.  A match starts at a line terminator; a
terminator met inside a match belongs to `\s*`, so `\r\n` needs no case of its own. -/
def multilineTrimFrom : Bool → Str → Str
  | _, [] => []
  | inMatch, c :: cs =>
    if isLineTerminator c then multilineTrimFrom true cs
    else if inMatch && isWhitespace c then multilineTrimFrom true cs
    else c :: multilineTrimFrom false cs

/-- The replacement `text.replace(reMultilineTrim, '')` of line 131. -/
def multilineTrim (text : Str) : Str := multilineTrimFrom false text

/-- The function `trim` of line 18: `text.replace(/^\s+|\s+$/g, '')`. -/
def trim (text : Str) : Str :=
  ((text.dropWhile isWhitespace).reverse.dropWhile isWhitespace).reverse

/-- The replacement `src.replace(reTrimSource, '')` of line 76, with
`reTrimSource = /^\n|\n$/` (no `g` flag: only the first match is removed). -/
def trimSource : Str → Str
  | '\n' :: cs => cs
  | cs => if cs.getLast? = some '\n' then cs.dropLast else cs

/-- After `\(` and `{` have matched: the lazy `.*?` followed by `}` and `\)`.
Returns what `.*?` consumed and what follows the closing parenthesis; `.` does not
cross a line terminator. -/
def lazyBody : Str → Option (Str × Str)
  | [] => none
  | c :: cs =>
    if c = '}' && cs.head? = some ')' then some ([], cs.drop 1)
    else if isLineTerminator c then none
    else (lazyBody cs).map (fun r => (c :: r.1, r.2))

/-- A match of `reAnnotationParam = /\(({.*?})\)/`: the text before the match, the
capture group 1, and the text after the match. -/
structure ParamMatch where
  before : Str
  group1 : Str
  after : Str
  deriving DecidableEq, Repr

/-- One attempt of `reAnnotationParam` at the start of the given text. -/
def matchParamHere : Str → Option (Str × Str)
  | '(' :: '{' :: cs => (lazyBody cs).map (fun r => ('{' :: r.1 ++ ['}'], r.2))
  | _ => none

/-- The leftmost match of `reAnnotationParam` in the text (`text.match(re)`). -/
def matchParam : Str → Option ParamMatch
  | [] => none
  | c :: cs =>
    match matchParamHere (c :: cs) with
    | some r => some ⟨[], r.1, r.2⟩
    | none => (matchParam cs).map (fun m => { m with before := c :: m.before })

/-- The replacement `annotation.replace(reAnnotationParam, '')`: the first match is
cut out. -/
def removeParam (text : Str) : Str :=
  match matchParam text with
  | some m => m.before ++ m.after
  | none => text

/-! ## Line information -/

/-- The loop of `getLineInfo` (lines 112-122).  `rest` is the source from index
`pos` on, where the search for the next match of
`reLineBreak = /\r\n|[\n\rU+2028U+2029]/g` stands; `cur` is the end of the last
line break counted.  Returns `line` and `column = offset - cur`. -/
def lineLoop : Str → Nat → Nat → Nat → Nat → Nat × Int
  | [], _, offset, line, cur => (line, (offset : Int) - cur)
  | '\r' :: '\n' :: cs, pos, offset, line, cur =>
    if pos < offset then lineLoop cs (pos + 2) offset (line + 1) (pos + 2)
    else (line, (offset : Int) - cur)
  | c :: cs, pos, offset, line, cur =>
    if isLineTerminator c then
      if pos < offset then lineLoop cs (pos + 1) offset (line + 1) (pos + 1)
      else (line, (offset : Int) - cur)
    else lineLoop cs (pos + 1) offset line cur

/-- Line and column of an offset. -/
structure LineInfo where
  line : Nat
  column : Int
  deriving DecidableEq, Repr

/-- The loop of `getLineInfo` started with `cur` at the given index. -/
def getLineInfoFrom (start : Nat) (source : Str) (offset : Nat) : LineInfo :=
  let r := lineLoop (source.drop start) start offset 1 start
  ⟨r.1, r.2⟩

end Remarker

/-- The function `acorn.getLineInfo` that the handlers call: the loop of which
`Remarker.getLineInfo` is, by the comment of lines 102-105, the modified version,
started at index 0 of the source. -/
def acorn.getLineInfo (source : Remarker.Str) (offset : Nat) : Remarker.LineInfo :=
  Remarker.getLineInfoFrom 0 source offset

namespace Remarker

/-! ## Data -/

/-- JSON values, the results of `JSON.parse`; a number is `mantissa * 10 ^ exponent`. -/
inductive JVal where
  | null
  | bool (b : Bool)
  | num (mantissa exponent : Int)
  | str (s : Str)
  | arr (items : List JVal)
  | obj (entries : List (Str × JVal))

/-- ToBoolean of a JSON value, as `params || {}` tests it. -/
def JVal.truthy : JVal → Bool
  | .null => false
  | .bool b => b
  | .num m _ => m != 0
  | .str s => !s.isEmpty
  | .arr _ => true
  | .obj _ => true

/-- The values a property read can give: `undefined`, `null`, or an object (a
function, or a primitive seen through its wrapper) identified by a number. -/
inductive Val where
  | undefined
  | null
  | ref (id : Nat)
  deriving DecidableEq, Repr

/-- The global object graph: what reading property `key` of object `id` gives, and
whether `typeof` of object `id` is `'function'`. -/
structure Graph where
  get : Nat → Str → Val
  isFunction : Nat → Bool

/-- The global object, `window`. -/
def window : Val := .ref 0

/-- A property key held in a `ctxArray`; `none` is `undefined` (the `name` of a
node that has none). -/
abbrev Key := Option Str

/-- ToString of a key used in `ctx[key]`. -/
def keyStr (k : Key) : Str := k.getD "undefined".toList

/-- The value of a record's `fn`: `{context, name}`, with the `isFunction` field
when it is a result of `getFunctionContext`. -/
structure Fn where
  context : Val
  name : Key
  isFunction : Option Bool
  deriving DecidableEq, Repr

/-- An element of `annotationBlocks`. -/
structure Block where
  line : Nat
  annotation : Str
  params : JVal
  fn : Option Fn

/-- The module-level variables of lines 12-15. -/
structure State where
  source : Str
  annotatedLines : List Nat
  annotationBlocks : List Block
  lastIndex : Nat

/-- The function `Remarker.getLineInfo` (lines 107-124).  `cur` starts at the module
variable `lastIndex`; the assignment `this.lastIndex = ...` writes a property of the
`Remarker` object, not that variable. -/
def getLineInfo (s : State) (source : Str) (offset : Nat) : LineInfo :=
  getLineInfoFrom s.lastIndex source offset

/-! ## `Remarker.annotationProcessor` (lines 128-156) -/

/-- The text of a comment as line 135 tests it: block comments lose their line
breaks with the whitespace after them, then the text is trimmed. -/
def cleanText (block : Bool) (text : Str) : Str :=
  trim (if block then multilineTrim text else text)

/-- The function `Remarker.annotationProcessor(block, text, start, end)`. -/
def annotationProcessor (jsonParse : Str → Except JsError JVal) (s : State)
    (block : Bool) (text : Str) (_start endPos : Nat) : Except JsError State :=
  let text := cleanText block text
  if text.head? = some '@' then
    let annotation := text.drop 1
    let line := (acorn.getLineInfo s.source endPos).line + 1
    match matchParam text with
    | some m =>
      match jsonParse m.group1 with
      | .error e => .error e
      | .ok params =>
        .ok { s with
          annotatedLines := s.annotatedLines ++ [line]
          annotationBlocks := s.annotationBlocks ++
            [{ line := line, annotation := removeParam annotation,
               params := if params.truthy then params else .obj [], fn := none }] }
    | none =>
      .ok { s with
        annotatedLines := s.annotatedLines ++ [line]
        annotationBlocks := s.annotationBlocks ++
          [{ line := line, annotation := annotation, params := .obj [], fn := none }] }
  else .ok s

/-! ## `getFunctionContext` (lines 27-49) -/

/-- The first argument of `getFunctionContext`: a string or a value. -/
inductive CtxArg where
  | name (s : Str)
  | value (v : Val)

/-- The second argument of `getFunctionContext`: a string, an array of keys, or
`undefined`. -/
inductive PathArg where
  | name (s : Str)
  | array (keys : List Key)
  | undefined

/-- The property read `ctx[key]`; reading a property of `undefined` or `null` is a
TypeError. -/
def getProp (G : Graph) : Val → Str → Except JsError Val
  | .ref id, key => .ok (G.get id key)
  | _, _ => .error .TypeError

/-- The test `typeof v === 'function'`. -/
def typeofFunction (G : Graph) : Val → Bool
  | .ref id => G.isFunction id
  | _ => false

/-- The loop `while (ctxArray.length > 1)` of lines 36-41: each key shifted off is
followed only if `ctx[obj]` is not `undefined`.  Returns `ctx` and `ctxArray[0]`. -/
def shiftLoop (G : Graph) : Val → List Key → Except JsError (Val × Key)
  | ctx, [] => .ok (ctx, none)
  | ctx, [k] => .ok (ctx, k)
  | ctx, k :: k2 :: rest =>
    match getProp G ctx (keyStr k) with
    | .error e => .error e
    | .ok v => shiftLoop G (if v = .undefined then ctx else v) (k2 :: rest)

/-- The function `getFunctionContext(ctx, ctxArray)`. -/
def getFunctionContext (G : Graph) (ctx : CtxArg) (ctxArray : PathArg) :
    Except JsError Fn :=
  let ctx : Except JsError Val :=
    match ctx with
    | .name s =>
      match getProp G window s with
      | .error e => .error e
      | .ok v => .ok (if v = .undefined then window else v)
    | .value v => .ok v
  let ctxArray : Except JsError (List Key) :=
    match ctxArray with
    | .name s => .ok [some s]
    | .array keys => .ok keys
    | .undefined => .error .TypeError
  match ctx, ctxArray with
  | .error e, _ => .error e
  | _, .error e => .error e
  | .ok ctx, .ok ctxArray =>
    match shiftLoop G ctx ctxArray with
    | .error e => .error e
    | .ok (ctx, name) =>
      match getProp G ctx (keyStr name) with
      | .error e => .error e
      | .ok v => .ok { context := ctx, name := name, isFunction := some (typeofFunction G v) }

/-! ## The syntax tree acorn builds -/

/-- Expression nodes, with the fields the walker reads.  `Other` stands for every
node kind that has none of `name`, `object`, `property`, `properties`. -/
inductive Expr where
  | Identifier (start : Nat) (name : Str)
  | FunctionExpression (start : Nat)
  | ObjectExpression (start : Nat) (properties : List (Expr × Expr))
  | MemberExpression (start : Nat) (object property : Expr)
  | CallExpression (start : Nat) (callee : Expr)
  | Other (start : Nat)

/-- The field `node.start`. -/
def Expr.start : Expr → Nat
  | .Identifier s _ => s
  | .FunctionExpression s => s
  | .ObjectExpression s _ => s
  | .MemberExpression s _ _ => s
  | .CallExpression s _ => s
  | .Other s => s

/-- The field `node.name`: `undefined` on everything but an identifier. -/
def Expr.name : Expr → Key
  | .Identifier _ n => some n
  | _ => none

/-- An element of `node.declarations`, always of type `VariableDeclarator`; `init`
is `none` (the `null` of acorn) for `var x;`. -/
structure VariableDeclarator where
  id : Expr
  init : Option Expr

/-- The nodes `acorn.walk.simple` hands to a visitor. -/
inductive Node where
  | FunctionDeclaration (start : Nat) (id : Expr)
  | VariableDeclaration (start : Nat) (declarations : List VariableDeclarator)
  | Expression (e : Expr)

/-! ## `Remarker.astWalker` (lines 158-312) -/

/-- The call `annotatedLines.indexOf(line)`: the first index holding `line`; `none`
is the result `-1`. -/
def indexOf : List Nat → Nat → Option Nat
  | [], _ => none
  | a :: rest, line => if a = line then some 0 else (indexOf rest line).map (· + 1)

/-- The assignment `annotationBlocks[index].fn = fn`; a TypeError when there is no
element at `index`. -/
def setFn (s : State) (index : Nat) (fn : Fn) : Except JsError State :=
  match s.annotationBlocks[index]? with
  | some b =>
    .ok { s with annotationBlocks := s.annotationBlocks.set index { b with fn := some fn } }
  | none => .error .TypeError

/-- The visitor `FunctionDeclaration` (lines 160-173), on a node with the given
`start` and `id`. -/
def FunctionDeclaration (s : State) (start : Nat) (id : Expr) : Except JsError State :=
  let line := (acorn.getLineInfo s.source start).line
  match indexOf s.annotatedLines line with
  | some index => setFn s index { context := window, name := id.name, isFunction := none }
  | none => .ok s

/-- A key is pushed by `if (x.name) ctxArray.push(x.name)` when the name is truthy. -/
def pushName (ctxArray : List Key) (e : Expr) : List Key :=
  match e.name with
  | some n => if n.isEmpty then ctxArray else ctxArray ++ [some n]
  | none => ctxArray

/-- The function `getContextRecursive` of the `MemberExpression` handler (lines
182-196), on a node with `object` and `property`.  `node.property` is an object, hence truthy: the
`else if` of line 192 is never reached.  A node without `object` makes
`node.object.object` a TypeError. -/
def MemberExpression.getContextRecursive : Expr → List Key → Except JsError (List Key)
  | .MemberExpression _ object property, ctxArray =>
    let inner : Except JsError (List Key) :=
      match object with
      | .MemberExpression s o p => MemberExpression.getContextRecursive (.MemberExpression s o p) ctxArray
      | _ => .ok ctxArray
    match inner with
    | .error e => .error e
    | .ok ctxArray => .ok (pushName ctxArray object ++ [property.name])
  | _, _ => .error .TypeError

/-- The visitor `MemberExpression` (lines 176-214). -/
def MemberExpression (G : Graph) (s : State) (node : Expr) : Except JsError State :=
  let line := (acorn.getLineInfo s.source node.start).line
  match indexOf s.annotatedLines line with
  | some index =>
    match MemberExpression.getContextRecursive node [] with
    | .error e => .error e
    | .ok ctxArray =>
      match getFunctionContext G (.value window) (.array ctxArray) with
      | .error e => .error e
      | .ok ctxObj => if ctxObj.isFunction = some true then setFn s index ctxObj else .ok s
  | none => .ok s

/-- The visitor `CallExpression` (lines 219-229), on a node with the given `start`
and `callee`. -/
def CallExpression (s : State) (start : Nat) (callee : Expr) : Except JsError State :=
  let line := (acorn.getLineInfo s.source start).line
  match indexOf s.annotatedLines line with
  | some index =>
    match s.annotationBlocks[index]? with
    | none => .error .TypeError
    | some b =>
      if b.fn.isNone then
        setFn s index { context := window, name := callee.name, isFunction := none }
      else .ok s
  | none => .ok s

/-- An element of `annotatedMembers`. -/
structure Member where
  line : Nat
  ctxArray : PathArg

mutual
/-- The function `getContextRecursive` of the `VariableDeclaration` handler (lines
245-269) on the property `{key, value}`; returns what the call pushes onto
`annotatedMembers`. -/
def VariableDeclaration.getContextRecursive (s : State) : Expr → Expr → List Key → List Member
  | key, .ObjectExpression _ properties, ctxArray =>
    forProperties s properties (pushName ctxArray key)
  | key, .FunctionExpression start, ctxArray =>
    let line := (acorn.getLineInfo s.source start).line
    if (indexOf s.annotatedLines line).isSome then
      [{ line := line, ctxArray := .array (pushName ctxArray key) }]
    else []
  | _, _, _ => []
/-- The loop of lines 250-256: each property gets its own copy of `ctxArray`. -/
def forProperties (s : State) : List (Expr × Expr) → List Key → List Member
  | [], _ => []
  | (key, value) :: rest, ctxArray =>
    VariableDeclaration.getContextRecursive s key value ctxArray ++ forProperties s rest ctxArray
end

/-- The variable `ctx` of the handler as the first argument of `getFunctionContext`. -/
def ctxArg : Option Str → CtxArg
  | some n => .name n
  | none => .value .undefined

/-- The variable `ctx` as the `ctxArray` of a member (line 294). -/
def ctxPath : Option Str → PathArg
  | some n => .name n
  | none => .undefined

/-- The loop over `node.declarations` (lines 273-298), threading `ctx` and
`annotatedMembers`. -/
def declarationsLoop (s : State) :
    List VariableDeclarator → Option Str → List Member → Except JsError (Option Str × List Member)
  | [], ctx, members => .ok (ctx, members)
  | decl :: rest, ctx, members =>
    let ctx := match decl.id with
      | .Identifier _ n => some n
      | _ => ctx
    match decl.init with
    | none => .error .TypeError
    | some (.ObjectExpression _ properties) =>
      declarationsLoop s rest ctx
        (members ++ (properties.map (fun p => VariableDeclaration.getContextRecursive s p.1 p.2 [])).flatten)
    | some (.FunctionExpression start) =>
      declarationsLoop s rest ctx
        (members ++ [{ line := (acorn.getLineInfo s.source start).line, ctxArray := ctxPath ctx }])
    | some _ => declarationsLoop s rest ctx members

/-- The statements `annotatedLines.splice(index, 1)` and
`annotationBlocks.splice(index, 1)`; the index `-1` addresses the last element. -/
def splice (s : State) : Option Nat → State
  | some index =>
    { s with annotatedLines := s.annotatedLines.eraseIdx index
             annotationBlocks := s.annotationBlocks.eraseIdx index }
  | none =>
    { s with annotatedLines := s.annotatedLines.dropLast
             annotationBlocks := s.annotationBlocks.dropLast }

/-- The loop `annotatedMembers.forEach` (lines 300-310). -/
def resolveMembers (G : Graph) (ctx : Option Str) : List Member → State → Except JsError State
  | [], s => .ok s
  | obj :: rest, s =>
    match getFunctionContext G (ctxArg ctx) obj.ctxArray with
    | .error e => .error e
    | .ok ctxObj =>
      let index := indexOf s.annotatedLines obj.line
      if ctxObj.isFunction = some true then
        match index with
        | none => .error .TypeError
        | some i =>
          match setFn s i ctxObj with
          | .error e => .error e
          | .ok s => resolveMembers G ctx rest s
      else resolveMembers G ctx rest (splice s index)

/-- The visitor `VariableDeclaration` (lines 234-311), on a node with the given
`declarations`. -/
def VariableDeclaration (G : Graph) (s : State) (declarations : List VariableDeclarator) :
    Except JsError State :=
  match declarationsLoop s declarations none [] with
  | .error e => .error e
  | .ok (ctx, annotatedMembers) => resolveMembers G ctx annotatedMembers s

/-- The visitor `acorn.walk.simple` finds in `Remarker.astWalker` for a node. -/
def astWalker (G : Graph) (s : State) : Node → Except JsError State
  | .FunctionDeclaration start id => FunctionDeclaration s start id
  | .VariableDeclaration _ declarations => VariableDeclaration G s declarations
  | .Expression (.MemberExpression start o p) => MemberExpression G s (.MemberExpression start o p)
  | .Expression (.CallExpression start callee) => CallExpression s start callee
  | .Expression _ => .ok s

/-- The module variables as the loop `annotatedMembers.forEach` (lines 300-310)
leaves them, whether it runs to its end or an iteration raises: every iteration
writes the arrays themselves, so what the earlier ones have set or spliced stays
when a later one raises. -/
def resolveMembers.state (G : Graph) (ctx : Option Str) : List Member → State → State
  | [], s => s
  | obj :: rest, s =>
    match getFunctionContext G (ctxArg ctx) obj.ctxArray with
    | .error _ => s
    | .ok ctxObj =>
      let index := indexOf s.annotatedLines obj.line
      if ctxObj.isFunction = some true then
        match index with
        | none => s
        | some i =>
          match setFn s i ctxObj with
          | .error _ => s
          | .ok s => resolveMembers.state G ctx rest s
      else resolveMembers.state G ctx rest (splice s index)

/-- The module variables as a visit leaves them, whether the visitor returns or
raises.  The other three visitors write once, as their last step; the
`VariableDeclaration` visitor writes in every iteration of its second loop. -/
def astWalker.state (G : Graph) (s : State) : Node → State
  | .VariableDeclaration _ declarations =>
    match declarationsLoop s declarations none [] with
    | .error _ => s
    | .ok (ctx, annotatedMembers) => resolveMembers.state G ctx annotatedMembers s
  | node =>
    match astWalker G s node with
    | .error _ => s
    | .ok s => s

/-! ## `Remarker.process` (lines 69-100) -/

/-- A comment as acorn reports it to `onComment`. -/
structure Comment where
  block : Bool
  text : Str
  start : Nat
  endPos : Nat

/-- What `acorn.parse` and `acorn.walk.simple` do with a source: the comments
reported, in order, and then either a SyntaxError or the nodes visited, in order. -/
structure Parsed where
  comments : List Comment
  visits : Except JsError (List Node)

/-- The parser, a collaborator outside this file. -/
structure Acorn where
  parse : Str → Parsed

/-- A handler function: one of the two of `DefaultHandlers`, or one of the caller. -/
inductive Handler (α : Type) where
  | Info
  | Instrument
  | user (h : α)
  deriving DecidableEq, Repr

/-- A handler object: its own properties in order. -/
abbrev Registry (α : Type) := List (Str × Handler α)

/-- The read `handlers[key]` of an own property. -/
def lookup {α : Type} (handlers : Registry α) (key : Str) : Option (Handler α) :=
  (handlers.find? (fun p => p.1 = key)).map (fun p => p.2)

/-- The assignment `dest[key] = value`. -/
def assign {α : Type} : Registry α → Str → Handler α → Registry α
  | [], key, value => [(key, value)]
  | (k, v) :: rest, key, value =>
    if k = key then (k, value) :: rest else (k, v) :: assign rest key value

/-- The function `merge(src, dest)` (lines 21-26): every key of `src` is written
into `dest`. -/
def merge {α : Type} (src dest : Registry α) : Registry α :=
  src.foldl (fun d p => assign d p.1 p.2) dest

/-- The object `DefaultHandlers` (lines 316-369). -/
def DefaultHandlers {α : Type} : Registry α :=
  [("Info".toList, .Info), ("Instrument".toList, .Instrument)]

/-- The comments of a parse, passed to `annotationProcessor` one after the other:
the state when the loop ends, and the error that ended it, if one did. -/
def onComments (jsonParse : Str → Except JsError JVal) : List Comment → State → State × Option JsError
  | [], s => (s, none)
  | c :: rest, s =>
    match annotationProcessor jsonParse s c.block c.text c.start c.endPos with
    | .error e => (s, some e)
    | .ok s => onComments jsonParse rest s

/-- The call `acorn.walk.simple(ast, Remarker.astWalker)` over the nodes in visiting
order: the state when the walk ends, and the error of the visitor that raised, if
one did; the state then holds what that visitor wrote before it raised. -/
def walk (G : Graph) : List Node → State → State × Option JsError
  | [], s => (s, none)
  | node :: rest, s =>
    match astWalker G s node with
    | .error e => (astWalker.state G s node, some e)
    | .ok s => walk G rest s

/-- Whether a handler raises on a record.  `Info` reads `block.fn.name` (line
321) and `Instrument` reads `block.fn.context` (line 327): a TypeError when `fn` was
never set.  `Instrument` then reads `context[fnName]` (line 329), a TypeError when
`context` is `undefined` or `null`, assigns `context[fnName]` (line 346) and writes
`context[fnName]._instrumented` (line 367): when `context` is `window` and the key
is `undefined`, as for a `fn` whose `name` is `undefined`, the assignment has no
effect, `window.undefined` being read-only, and line 367 writes a property of
`undefined`, a TypeError.  A handler of the caller is taken to return normally. -/
def raises {α : Type} : Handler α → Block → Bool
  | .Info, block => block.fn.isNone
  | .Instrument, block =>
    match block.fn with
    | none => true
    | some fn =>
      match fn.context with
      | .ref id => id == 0 && keyStr fn.name == "undefined".toList
      | _ => true
  | .user _, _ => false

/-- The loop of lines 92-97: the calls made, in order, and the error that ended
the loop, if one did. -/
def dispatch {α : Type} (handlers : Registry α) :
    List Block → List (Handler α × Block) × Option JsError
  | [] => ([], none)
  | block :: rest =>
    let key := Block.annotation block
    let handler := if (lookup handlers key).isSome
      then lookup handlers key else lookup handlers "Info".toList
    match handler with
    | none => ([], some .TypeError)
    | some h =>
      if raises h block then ([(h, block)], some .TypeError)
      else ((h, block) :: (dispatch handlers rest).1, (dispatch handlers rest).2)

/-- What a call of `Remarker.process` leaves behind: the module state, the handler
calls made, and the error raised, if any. -/
structure Run (α : Type) where
  state : State
  calls : List (Handler α × Block)
  error : Option JsError

/-- The function `Remarker.process(src, handlers)`, entered with the module
variables as an earlier call left them (`prev`); `handlers` is `none` when the
argument is absent. -/
def process {α : Type} (jsonParse : Str → Except JsError JVal) (G : Graph) (acorn : Acorn)
    (prev : State) (src : Str) (handlers : Option (Registry α)) : Run α :=
  let s : State := { prev with
    annotatedLines := [], annotationBlocks := [], lastIndex := 0,
    source := trimSource src }
  let handlers := merge DefaultHandlers (handlers.getD [])
  let parsed := acorn.parse s.source
  match onComments jsonParse parsed.comments s with
  | (s1, some e) => ⟨s1, [], some e⟩
  | (s1, none) =>
    match parsed.visits with
    | .error e => ⟨s1, [], some e⟩
    | .ok nodes =>
      match walk G nodes s1 with
      | (s2, some e) => ⟨s2, [], some e⟩
      | (s2, none) => ⟨s2, (dispatch handlers s2.annotationBlocks).1,
                       (dispatch handlers s2.annotationBlocks).2⟩

/-! ## Vocabulary of the statements -/

/-- Whether the two characters `})` occur in a text. -/
def hasCloser : Str → Bool
  | [] => false
  | c :: cs => (c = '}' && cs.head? = some ')') || hasCloser cs

/-- The member chain `x0.x1.....xn` as acorn builds it: nested to the left, every
member expression starting where `x0` starts.  `xs` holds, for each of `x1`, ...,
`xn`, the offset and the name of the property identifier. -/
def chain (start : Nat) (x0 : Str) (xs : List (Nat × Str)) : Expr :=
  xs.foldl (fun object x => .MemberExpression start object (.Identifier x.1 x.2))
    (.Identifier start x0)

/-- What the expression `v.x1.....xk` denotes in the object graph; `none` when a
property is read off `undefined` or `null`. -/
def evalPath (G : Graph) : Val → List Str → Option Val
  | v, [] => some v
  | .ref id, x :: xs => evalPath G (G.get id x) xs
  | _, _ :: _ => none

/-- One level of a nested object literal: the offset of the literal, the properties
written before the one that leads further in, the offset and name of its key, and
the properties written after it. -/
structure Level where
  start : Nat
  before : List (Expr × Expr)
  keyStart : Nat
  key : Str
  after : List (Expr × Expr)

/-- The object literal in which the keys of `levels`, outermost first, lead to a
function expression that starts at `fstart`. -/
def nestedLiteral : List Level → Nat → Expr
  | [], fstart => .FunctionExpression fstart
  | l :: rest, fstart =>
    .ObjectExpression l.start
      (l.before ++ (.Identifier l.keyStart l.key, nestedLiteral rest fstart) :: l.after)

mutual
/-- No function expression that is a property value inside this value, at any
depth, or the value itself, starts on a line of `annotatedLines`. -/
def quietValue (source : Str) (annotatedLines : List Nat) : Expr → Bool
  | .ObjectExpression _ properties => quietProperties source annotatedLines properties
  | .FunctionExpression start =>
    (indexOf annotatedLines (acorn.getLineInfo source start).line).isNone
  | _ => true
/-- The same as `quietValue`, for the value of every property of a list. -/
def quietProperties (source : Str) (annotatedLines : List Nat) : List (Expr × Expr) → Bool
  | [] => true
  | (_, value) :: rest =>
    quietValue source annotatedLines value && quietProperties source annotatedLines rest
end

/-- A declarator that records no candidate: it has an initialiser, the initialiser
is not itself a function expression, and no function expression among its property
values, at any depth, starts on a line of `annotatedLines`. -/
def quietDeclarator (source : Str) (annotatedLines : List Nat) (decl : VariableDeclarator) : Bool :=
  match decl.init with
  | none => false
  | some (.FunctionExpression _) => false
  | some value => quietValue source annotatedLines value

/-- A node that is quiet for the lines of `annotatedLines`: a node of a kind without
visitor; a function declaration, member expression or call expression that starts on
none of these lines; or a variable declaration whose declarators are all quiet. -/
def quietNode (source : Str) (annotatedLines : List Nat) : Node → Bool
  | .FunctionDeclaration start _ =>
    (indexOf annotatedLines (acorn.getLineInfo source start).line).isNone
  | .VariableDeclaration _ declarations =>
    declarations.all (quietDeclarator source annotatedLines)
  | .Expression (.MemberExpression start _ _) =>
    (indexOf annotatedLines (acorn.getLineInfo source start).line).isNone
  | .Expression (.CallExpression start _) =>
    (indexOf annotatedLines (acorn.getLineInfo source start).line).isNone
  | .Expression _ => true

/-! ## Sample inputs -/

/-- The function `JSON.parse` at the texts the examples use: `{"a":1}`, `{}` and
`{"a":"})"}` denote the objects given; at `{"a":"}` (an unterminated string) and
`{bad}` (an unquoted key), the other two texts it is applied to, it raises a
SyntaxError. -/
def jsonParseSample (t : Str) : Except JsError JVal :=
  if t = "\x7b\"a\":1\x7d".toList then .ok (.obj [("a".toList, .num 1 0)])
  else if t = "\x7b\x7d".toList then .ok (.obj [])
  else if t = "\x7b\"a\":\"\x7d)\"\x7d".toList then .ok (.obj [("a".toList, .str "\x7d)".toList)])
  else .error .SyntaxError

/-- The source `// @Log({"a":1})`, `function foo(){}`, of two lines: a function
declaration annotated with parameters; the comment ends at offset 16. -/
def sourceParams : Str := "// @Log(\x7b\"a\":1\x7d)\nfunction foo()\x7b\x7d".toList

/-- The module state before any call of `Remarker.process`. -/
def emptyState : State := ⟨[], [], [], 0⟩

/-- A parser that gives the same parse whatever the source: used with the parse of
the one source an example is about. -/
def parsedAs (p : Parsed) : Acorn := ⟨fun _ => p⟩

/-- A global object with the functions `foo` (object 1) and `g` (object 2). -/
def globalFooG : Graph where
  get := fun id key =>
    if id = 0 ∧ key = "foo".toList then .ref 1
    else if id = 0 ∧ key = "g".toList then .ref 2
    else .undefined
  isFunction := fun id => id = 1 || id = 2

/-- The source `// @Log`, `function foo(){}`, `var g = function(){};`, of three
lines: an annotated function declaration, then an unannotated variable initialised
with a function expression. -/
def sourceVarFunction : Str := "// @Log\nfunction foo()\x7b\x7d\nvar g = function()\x7b\x7d;".toList

/-- The parse of `sourceVarFunction`: the comment ends at offset 7; `function foo`
starts at offset 8, `var` at 25 and the function expression at 33. -/
def parsedVarFunction : Parsed where
  comments := [⟨false, " @Log".toList, 0, 7⟩]
  visits := .ok [
    .FunctionDeclaration 8 (.Identifier 17 "foo".toList),
    .VariableDeclaration 25 [⟨.Identifier 29 "g".toList, some (.FunctionExpression 33)⟩]]

/-- The source `// @Info`, `function foo(){}`, of two lines: a function declaration
annotated `@Info`. -/
def sourceInfo : Str := "// @Info\nfunction foo()\x7b\x7d".toList

/-- The parse of `sourceInfo`: the comment ends at offset 8, `function foo` starts
at offset 9. -/
def parsedInfo : Parsed where
  comments := [⟨false, " @Info".toList, 0, 8⟩]
  visits := .ok [.FunctionDeclaration 9 (.Identifier 18 "foo".toList)]

/-- The module state after the comment of `sourceInfo` has been processed: one
record, for line 2. -/
def stateInfo : State := ⟨sourceInfo, [2], [⟨2, "Info".toList, .obj [], none⟩], 0⟩

/-- The source of three lines with `// @Log` on line 1, a blank line 2 and
`function foo(){}` on line 3. -/
def sourceBlankLine : Str := "// @Log\n\nfunction foo()\x7b\x7d".toList

/-- The parse of `sourceBlankLine`: the comment ends at offset 7, `function foo`
starts at offset 9. -/
def parsedBlankLine : Parsed where
  comments := [⟨false, " @Log".toList, 0, 7⟩]
  visits := .ok [.FunctionDeclaration 9 (.Identifier 18 "foo".toList)]

/-- A global object in which `A` is object 1, `A.b` object 2 and `A.b.c` the
function 3. -/
def globalABC : Graph where
  get := fun id key =>
    if id = 0 ∧ key = "A".toList then .ref 1
    else if id = 1 ∧ key = "b".toList then .ref 2
    else if id = 2 ∧ key = "c".toList then .ref 3
    else .undefined
  isFunction := fun id => id = 3

/-- The source `var A = {}; A.b = {}; // @Log`, `A.b.c = function(){};`, of two
lines; the comment ends at offset 29 on line 1, and on line 2 `A` is at offset 30,
`b` at 32 and `c` at 34. -/
def sourceChain : Str := "var A = \x7b\x7d; A.b = \x7b\x7d; // @Log\nA.b.c = function()\x7b\x7d;".toList

/-- The module state after the comment of `sourceChain` has been processed: one
record, for line 2. -/
def stateChain : State := ⟨sourceChain, [2], [⟨2, "Log".toList, .obj [], none⟩], 0⟩

/-- The source `/* @A */ /* @B */`, `function f(){}`, of two lines: two annotation
comments that end on line 1, then a function declaration on line 2. -/
def sourceTwoComments : Str := "/* @A */ /* @B */\nfunction f()\x7b\x7d".toList

/-- The parse of `sourceTwoComments`: the comments end at offsets 8 and 17,
`function f` starts at offset 18. -/
def parsedTwoComments : Parsed where
  comments := [⟨true, " @A ".toList, 0, 8⟩, ⟨true, " @B ".toList, 9, 17⟩]
  visits := .ok [.FunctionDeclaration 18 (.Identifier 27 "f".toList)]

/-- A global object with the function `f` (object 1). -/
def globalF : Graph where
  get := fun id key => if id = 0 ∧ key = "f".toList then .ref 1 else .undefined
  isFunction := fun id => id = 1

/-- The source `// @Log`, `A.b.c = wrap(function(){});`, of two lines; on the
annotated line 2 the member expression `A.b.c` starts at offset 8 and the call
`wrap(...)` at offset 16. -/
def sourceMemberCall : Str := "// @Log\nA.b.c = wrap(function()\x7b\x7d);".toList

/-- The module state after the comment of `sourceMemberCall` has been processed:
one record, for line 2. -/
def stateMemberCall : State := ⟨sourceMemberCall, [2], [⟨2, "Log".toList, .obj [], none⟩], 0⟩

/-- The source `// @Log({bad})`, `function foo(){}`, of two lines: the annotation
has a parameter section that is not JSON. -/
def sourceBadParams : Str := "// @Log(\x7bbad\x7d)\nfunction foo()\x7b\x7d".toList

/-- The parse of `sourceBadParams`: the comment ends at offset 14, `function foo`
starts at offset 15. -/
def parsedBadParams : Parsed where
  comments := [⟨false, " @Log(\x7bbad\x7d)".toList, 0, 14⟩]
  visits := .ok [.FunctionDeclaration 15 (.Identifier 24 "foo".toList)]

/-- A global object in which `obj` is object 1, `obj.x` object 2 and `obj.x.y`
the function 3. -/
def globalObjXY : Graph where
  get := fun id key =>
    if id = 0 ∧ key = "obj".toList then .ref 1
    else if id = 1 ∧ key = "x".toList then .ref 2
    else if id = 2 ∧ key = "y".toList then .ref 3
    else .undefined
  isFunction := fun id => id = 3

/-- The declaration `var obj = { x: { y: function(){} } }` with `var` at offset 0,
`obj` at 4, the outer literal at 10, `x` at 12, the inner literal at 15, `y` at 28
and the function expression at 31. -/
def declarationObjXY : Node :=
  .VariableDeclaration 0 [⟨.Identifier 4 "obj".toList,
    some (.ObjectExpression 10 [(.Identifier 12 "x".toList,
      .ObjectExpression 15 [(.Identifier 28 "y".toList, .FunctionExpression 31)])])⟩]

/-- The source `var obj = { x: { /* @Log */ y: function(){} } };`, of one line:
the block comment is written inside the literal, on the line of the property. -/
def sourceNestedInline : Str := "var obj = \x7b x: \x7b /* @Log */ y: function()\x7b\x7d \x7d \x7d;".toList

/-- The parse of `sourceNestedInline`: the comment spans offsets 17 to 27. -/
def parsedNestedInline : Parsed where
  comments := [⟨true, " @Log ".toList, 17, 27⟩]
  visits := .ok [declarationObjXY]

/-- The source `var obj = { x: {`, `/* @Log */`, `y: function(){} } };`, of three
lines: the block comment is alone on line 2, the property `y` on line 3.  The
offsets are those of `sourceNestedInline`. -/
def sourceNestedLines : Str := "var obj = \x7b x: \x7b\n/* @Log */\ny: function()\x7b\x7d \x7d \x7d;".toList

/-- The parse of `sourceNestedLines`: the comment spans offsets 17 to 27. -/
def parsedNestedLines : Parsed where
  comments := [⟨true, " @Log ".toList, 17, 27⟩]
  visits := .ok [declarationObjXY]

/-- A handler object of the caller with an entry of its own under `Info`. -/
def handlersInfo : Registry Nat := [("Info".toList, .user 7)]

/-! ## Calls of `Remarker.getLineInfo` -/

/-- The call `Remarker.getLineInfo(source, offset)` with what it leaves behind: the
result, and the property `lastIndex` of `this` (`none` while it is not set).  Line 117
assigns `cur` and `this.lastIndex` together, so after the call the property holds the
final `cur = offset - column` when a line break was counted (`line > 1`) and is
untouched otherwise.  No module variable is assigned. -/
def getLineInfoCall (s : State) (this : Option Nat) (source : Str) (offset : Nat) :
    LineInfo × Option Nat :=
  let r := getLineInfo s source offset
  (r, if r.line = 1 then this else some ((offset : Int) - r.column).toNat)

/-- The property `lastIndex` of `this` after a sequence of calls
`Remarker.getLineInfo(source, offset)`, made in the given order. -/
def getLineInfoCalls (s : State) (this : Option Nat) : List (Str × Nat) → Option Nat
  | [] => this
  | c :: rest => getLineInfoCalls s (getLineInfoCall s this c.1 c.2).2 rest

/-- The line breaks of a text whose first character has index `pos`: for each, in
order, the index at which it begins and the index just after it.  A `\r\n` is one
line break; `\n`, `\r`, U+2028 and U+2029 are the others. -/
def lineBreaks : Str → Nat → List (Nat × Nat)
  | [], _ => []
  | '\r' :: '\n' :: cs, pos => (pos, pos + 2) :: lineBreaks cs (pos + 2)
  | c :: cs, pos =>
    if isLineTerminator c then (pos, pos + 1) :: lineBreaks cs (pos + 1)
    else lineBreaks cs (pos + 1)

/-- The line information of the specification: `line` is 1 plus the number of line
breaks that begin before `offset`, `column` is `offset` minus the index just after
the last of them (`offset` itself when there is none). -/
def lineInfoSpec (source : Str) (offset : Nat) : LineInfo :=
  let before := (lineBreaks source 0).filter (fun b => b.1 < offset)
  ⟨1 + before.length, (offset : Int) - ((before.getLast?.map (fun b => b.2)).getD 0 : Nat)⟩

/-! ## Vocabulary of the statements, continued -/

/-- The name of a key that is an identifier; the empty text for any other key. -/
def keyName : Expr → Str
  | .Identifier _ n => n
  | _ => []

mutual
/-- Every key in this value, at any depth, is an identifier with a name. -/
def identifierKeys : Expr → Bool
  | .ObjectExpression _ properties => identifierKeysOf properties
  | _ => true
/-- The same as `identifierKeys`, for the properties of an object literal. -/
def identifierKeysOf : List (Expr × Expr) → Bool
  | [] => true
  | (key, value) :: rest =>
    !(keyName key).isEmpty && key.name.isSome && identifierKeys value && identifierKeysOf rest
end

mutual
/-- The function expressions inside a value that are property values at some depth,
or the value itself: for each, in source order, the keys that lead from the value
down to it, outer to inner, and the offset at which it starts. -/
def functionPaths : Expr → List (List Str × Nat)
  | .FunctionExpression start => [([], start)]
  | .ObjectExpression _ properties => propertyPaths properties
  | _ => []
/-- The function-valued properties of an object literal, at any depth: for each, in
source order, the keys on the path from the top level of the literal down to the
property, ending with the property's own key, and the offset at which its function
expression starts. -/
def propertyPaths : List (Expr × Expr) → List (List Str × Nat)
  | [] => []
  | (key, value) :: rest =>
    (functionPaths value).map (fun p => (keyName key :: p.1, p.2)) ++ propertyPaths rest
end

/-- The module states reachable within one call of `Remarker.process` on `src`: the
state after the initialisation of lines 72-76, and every state that a call of
`annotationProcessor` or of a visitor of `astWalker` returns in from a reachable
state, in any number and order. -/
inductive Reachable (jsonParse : Str → Except JsError JVal) (G : Graph) (src : Str) :
    State → Prop where
  | init (prev : State) :
    Reachable jsonParse G src { prev with
      annotatedLines := [], annotationBlocks := [], lastIndex := 0, source := trimSource src }
  | comment (s s' : State) (block : Bool) (text : Str) (start endPos : Nat) :
    Reachable jsonParse G src s →
    annotationProcessor jsonParse s block text start endPos = .ok s' →
    Reachable jsonParse G src s'
  | visit (s s' : State) (node : Node) :
    Reachable jsonParse G src s →
    astWalker G s node = .ok s' →
    Reachable jsonParse G src s'

/-! ## Sample inputs, continued -/

/-- The module state of `sourceVarFunction` after its comment has been processed and
`function foo(){}` has been visited: the one record, for line 2, is bound to `foo`. -/
def stateVarFunction : State :=
  ⟨sourceVarFunction, [2],
    [⟨2, "Log".toList, .obj [], some ⟨window, some "foo".toList, none⟩⟩], 0⟩

/-- The source `var x;`: a variable declaration without initialiser. -/
def sourceNoInit : Str := "var x;".toList

/-- The parse of `sourceNoInit`: no comment; `var` starts at offset 0, `x` at 4. -/
def parsedNoInit : Parsed where
  comments := []
  visits := .ok [.VariableDeclaration 0 [⟨.Identifier 4 "x".toList, none⟩]]

/-- The source `var o = {`, `// @P`, `a: function(){},`, `x: {`, `// @Q`,
`y: function(){}, z: 1,`, `w: function(){} },`, `b: function(){} };`, of eight lines:
the function-valued properties `a` (line 3) and `x.y` (line 6) are annotated, `x.w`
(line 7) and `b` (line 8) are not. -/
def sourceSiblings : Str :=
  "var o = \x7b\n// @P\na: function()\x7b\x7d,\nx: \x7b\n// @Q\ny: function()\x7b\x7d, z: 1,\nw: function()\x7b\x7d \x7d,\nb: function()\x7b\x7d \x7d;".toList

/-- The properties of the literal of `sourceSiblings`: `a` at offset 16 with its
function expression at 19, `x` at 33 with its literal at 36, in it `y` at 44 with
its function expression at 47, `z` at 61 with the number at 64 and `w` at 67 with
its function expression at 70, and `b` at 86 with its function expression at 89. -/
def propertiesSiblings : List (Expr × Expr) :=
  [(.Identifier 16 "a".toList, .FunctionExpression 19),
   (.Identifier 33 "x".toList, .ObjectExpression 36
      [(.Identifier 44 "y".toList, .FunctionExpression 47),
       (.Identifier 61 "z".toList, .Other 64),
       (.Identifier 67 "w".toList, .FunctionExpression 70)]),
   (.Identifier 86 "b".toList, .FunctionExpression 89)]

/-- The module state after the two comments of `sourceSiblings` have been
processed: records for lines 3 and 6. -/
def stateSiblings : State :=
  ⟨sourceSiblings, [3, 6],
    [⟨3, "P".toList, .obj [], none⟩, ⟨6, "Q".toList, .obj [], none⟩], 0⟩

/-- The source `var a = {`, `// @Log`, `f: function(){} }, b = { f: g };`, of three
lines: one declaration with the declarators `a` and `b`; the annotated function
expression, at offset 21 on line 3, is the property `f` of the literal of `a`. -/
def sourceTwoDeclarators : Str :=
  "var a = \x7b\n// @Log\nf: function()\x7b\x7d \x7d, b = \x7b f: g \x7d;".toList

/-- The parse of `sourceTwoDeclarators`: the comment spans offsets 10 to 17; `a` is
at offset 4 with its literal at 8, `f` at 18 with the function expression at 21; `b`
is at 37 with its literal at 41, `f` at 43 and `g` at 46. -/
def parsedTwoDeclarators : Parsed where
  comments := [⟨false, " @Log".toList, 10, 17⟩]
  visits := .ok [.VariableDeclaration 0
    [⟨.Identifier 4 "a".toList,
        some (.ObjectExpression 8 [(.Identifier 18 "f".toList, .FunctionExpression 21)])⟩,
     ⟨.Identifier 37 "b".toList,
        some (.ObjectExpression 41 [(.Identifier 43 "f".toList, .Identifier 46 "g".toList)])⟩]]

/-- A global object in which `a` is object 1, `a.f` the function 2, `b` object 3,
and `b.f` and `g` the function 4. -/
def globalAB : Graph where
  get := fun id key =>
    if id = 0 ∧ key = "a".toList then .ref 1
    else if id = 1 ∧ key = "f".toList then .ref 2
    else if id = 0 ∧ key = "b".toList then .ref 3
    else if id = 3 ∧ key = "f".toList then .ref 4
    else if id = 0 ∧ key = "g".toList then .ref 4
    else .undefined
  isFunction := fun id => id = 2 || id = 4

/-- The source `// @A`, `function foo(){}`, `var o = {`, `// @B`,
`p: function(){}, q: function(){} };`, of five lines: an annotated function
declaration on line 2, and two function-valued properties on the annotated line 5. -/
def sourceSameLine : Str :=
  "// @A\nfunction foo()\x7b\x7d\nvar o = \x7b\n// @B\np: function()\x7b\x7d, q: function()\x7b\x7d \x7d;".toList

/-- The declaration `var o = { p: function(){}, q: function(){} }` of
`sourceSameLine`: `var` at offset 23, `o` at 27, the literal at 31, `p` at 39 with its
function expression at 42, `q` at 56 with its function expression at 59. -/
def declarationSameLine : List VariableDeclarator :=
  [⟨.Identifier 27 "o".toList, some (.ObjectExpression 31
    [(.Identifier 39 "p".toList, .FunctionExpression 42),
     (.Identifier 56 "q".toList, .FunctionExpression 59)])⟩]

/-- The parse of `sourceSameLine`: the comments span offsets 0 to 5 and 33 to 38,
`function foo` starts at offset 6. -/
def parsedSameLine : Parsed where
  comments := [⟨false, " @A".toList, 0, 5⟩, ⟨false, " @B".toList, 33, 38⟩]
  visits := .ok [.FunctionDeclaration 6 (.Identifier 15 "foo".toList),
    .VariableDeclaration 23 declarationSameLine]

/-- The module state of `sourceSameLine` after its comments have been processed and
`function foo(){}` has been visited: the record for line 2 is bound to `foo`, the
record for line 5 is not bound yet. -/
def stateSameLine : State :=
  ⟨sourceSameLine, [2, 5],
    [⟨2, "A".toList, .obj [], some ⟨window, some "foo".toList, none⟩⟩,
     ⟨5, "B".toList, .obj [], none⟩], 0⟩

/-- The source `/* note */`, `// @Log`, `function foo(){}`, `var n = 1;`, `foo();`,
of five lines: a comment that is no annotation, an annotation comment on line 2, the
function declaration on line 3, and two statements on lines 4 and 5. -/
def sourceAmongOthers : Str :=
  "/* note */\n// @Log\nfunction foo()\x7b\x7d\nvar n = 1;\nfoo();".toList

/-- The parse of `sourceAmongOthers`: the comments span offsets 0 to 10 and 11 to
18; `function foo` starts at offset 19 with `foo` at 28, `var` at 36 with `n` at 40
and the number at 44, and the call `foo()` at 47. -/
def parsedAmongOthers : Parsed where
  comments := [⟨true, " note ".toList, 0, 10⟩, ⟨false, " @Log".toList, 11, 18⟩]
  visits := .ok [.FunctionDeclaration 19 (.Identifier 28 "foo".toList),
    .VariableDeclaration 36 [⟨.Identifier 40 "n".toList, some (.Other 44)⟩],
    .Expression (.CallExpression 47 (.Identifier 47 "foo".toList))]

/-- The source `sourceNestedLines` with a fourth line `obj.x.y();`. -/
def sourceNestedCall : Str :=
  "var obj = \x7b x: \x7b\n/* @Log */\ny: function()\x7b\x7d \x7d \x7d;\nobj.x.y();".toList

/-- The parse of `sourceNestedCall`: the comment spans offsets 17 to 27; after the
declaration the walk visits the member expressions `obj.x` and `obj.x.y` and the
call, which all start at offset 49, with `x` at 53 and `y` at 55. -/
def parsedNestedCall : Parsed where
  comments := [⟨true, " @Log ".toList, 17, 27⟩]
  visits := .ok [declarationObjXY,
    .Expression (.MemberExpression 49 (.Identifier 49 "obj".toList) (.Identifier 53 "x".toList)),
    .Expression (.MemberExpression 49
      (.MemberExpression 49 (.Identifier 49 "obj".toList) (.Identifier 53 "x".toList))
      (.Identifier 55 "y".toList)),
    .Expression (.CallExpression 49 (.MemberExpression 49
      (.MemberExpression 49 (.Identifier 49 "obj".toList) (.Identifier 53 "x".toList))
      (.Identifier 55 "y".toList)))]

/-- The source `// @Log(bad)`, `function foo(){}`, of two lines: the comment ends at
offset 12. -/
def sourceLooseParams : Str := "// @Log(bad)\nfunction foo()\x7b\x7d".toList

/-- The parse of `sourceLooseParams`: `function foo` starts at offset 13. -/
def parsedLooseParams : Parsed where
  comments := [⟨false, " @Log(bad)".toList, 0, 12⟩]
  visits := .ok [.FunctionDeclaration 13 (.Identifier 22 "foo".toList)]

/-! ## Lemmas on the regular expressions -/

theorem isWhitespace_of_isLineTerminator {c : Char} (h : isLineTerminator c = true) :
    isWhitespace c = true := by
  simp only [isLineTerminator, Bool.or_eq_true, decide_eq_true_eq] at h
  simp only [isWhitespace, Bool.or_eq_true, decide_eq_true_eq, Bool.and_eq_true]
  rcases h with ((h | h) | h) | h <;> simp [h]

theorem multilineTrimFrom_false_eq (t : Str) (h : ∀ c ∈ t, isLineTerminator c = false) :
    multilineTrimFrom false t = t := by
  induction t with
  | nil => rfl
  | cons c cs ih =>
    have hc := h c (List.mem_cons_self _ _)
    simp [multilineTrimFrom, hc, ih (fun d hd => h d (List.mem_cons_of_mem _ hd))]

theorem dropWhile_eq_self {p : Char → Bool} (t : Str) (h : ∀ c, t.head? = some c → p c = false) :
    t.dropWhile p = t := by
  cases t with
  | nil => rfl
  | cons c cs => simp [List.dropWhile, h c rfl]

theorem trim_eq_self (t : Str) (h1 : ∀ c, t.head? = some c → isWhitespace c = false)
    (h2 : ∀ c, t.getLast? = some c → isWhitespace c = false) : trim t = t := by
  unfold trim
  rw [dropWhile_eq_self t h1, dropWhile_eq_self t.reverse (by simpa using h2), List.reverse_reverse]

theorem lazyBody_body (body : Str) (hbody : ∀ c ∈ body, isLineTerminator c = false)
    (hclose : hasCloser (body ++ ['}']) = false) :
    lazyBody (body ++ ['}', ')']) = some (body, []) := by
  induction body with
  | nil => rfl
  | cons c cs ih =>
    have hc := hbody c (List.mem_cons_self _ _)
    simp only [List.cons_append, hasCloser, Bool.or_eq_false_iff, List.append_eq] at hclose
    have hhead : (cs ++ ['}', ')']).head? = some ')' ↔ (cs ++ ['}']).head? = some ')' := by
      cases cs <;> simp
    have h1 : (decide (c = '}') && decide ((cs ++ ['}', ')']).head? = some ')')) = false := by
      rw [← hclose.1]
      simp [hhead]
    simp only [List.cons_append, lazyBody, List.append_eq, h1, hc, Bool.false_eq_true, if_false,
      ih (fun d hd => hbody d (List.mem_cons_of_mem _ hd)) hclose.2, Option.map_some']

theorem matchParamHere_none (c : Char) (cs : Str) (h : c ≠ '(') : matchParamHere (c :: cs) = none := by
  unfold matchParamHere
  split
  · simp_all
  · rfl

theorem matchParam_none (t : Str) (h : ∀ c ∈ t, c ≠ '(') : matchParam t = none := by
  induction t with
  | nil => rfl
  | cons c cs ih =>
    simp [matchParam, matchParamHere_none c cs (h c (List.mem_cons_self _ _)),
      ih (fun d hd => h d (List.mem_cons_of_mem _ hd))]

theorem matchParam_section (pre body : Str) (hpre : ∀ c ∈ pre, c ≠ '(')
    (hbody : ∀ c ∈ body, isLineTerminator c = false) (hclose : hasCloser (body ++ ['}']) = false) :
    matchParam (pre ++ '(' :: '{' :: (body ++ ['}', ')'])) = some ⟨pre, '{' :: (body ++ ['}']), []⟩ := by
  induction pre with
  | nil => simp [matchParam, matchParamHere, lazyBody_body body hbody hclose]
  | cons c cs ih =>
    simp [matchParam, matchParamHere_none c _ (hpre c (List.mem_cons_self _ _)),
      ih (fun d hd => hpre d (List.mem_cons_of_mem _ hd))]

theorem cleanText_eq_self (block : Bool) (t : Str) (hlt : ∀ c ∈ t, isLineTerminator c = false)
    (h1 : ∀ c, t.head? = some c → isWhitespace c = false)
    (h2 : ∀ c, t.getLast? = some c → isWhitespace c = false) : cleanText block t = t := by
  unfold cleanText multilineTrim
  rw [multilineTrimFrom_false_eq t hlt]
  simp [trim_eq_self t h1 h2]

theorem isLineTerminator_of_not_isWhitespace {c : Char} (h : isWhitespace c = false) :
    isLineTerminator c = false := by
  cases hlt : isLineTerminator c with
  | false => rfl
  | true => rw [isWhitespace_of_isLineTerminator hlt] at h; cases h

theorem cleanText_section (block : Bool) (name body : Str)
    (hname : ∀ c ∈ name, c ≠ '(' ∧ isWhitespace c = false)
    (hbody : ∀ c ∈ body, isLineTerminator c = false) :
    cleanText block ('@' :: name ++ '(' :: '{' :: (body ++ ['}', ')'])) =
      '@' :: name ++ '(' :: '{' :: (body ++ ['}', ')']) := by
  apply cleanText_eq_self
  · intro c hc
    simp only [List.cons_append, List.mem_cons, List.mem_append, List.mem_singleton,
      List.not_mem_nil, or_false] at hc
    rcases hc with h | h | h | h | h | h | h
    · subst h; decide
    · exact isLineTerminator_of_not_isWhitespace (hname c h).2
    · subst h; decide
    · subst h; decide
    · exact hbody c h
    · subst h; decide
    · subst h; decide
  · intro c hc
    simp only [List.cons_append, List.head?_cons, Option.some.injEq] at hc
    subst hc; decide
  · intro c hc
    have e : '@' :: name ++ '(' :: '{' :: (body ++ ['}', ')']) =
        ('@' :: name ++ '(' :: '{' :: (body ++ ['}'])) ++ [')'] := by simp
    rw [e, List.getLast?_append] at hc
    simp at hc
    subst hc; decide

theorem cleanText_name (block : Bool) (name : Str)
    (hname : ∀ c ∈ name, c ≠ '(' ∧ isWhitespace c = false) :
    cleanText block ('@' :: name) = '@' :: name := by
  apply cleanText_eq_self
  · intro c hc
    rcases List.mem_cons.1 hc with h | h
    · subst h; decide
    · exact isLineTerminator_of_not_isWhitespace (hname c h).2
  · intro c hc
    simp only [List.head?_cons, Option.some.injEq] at hc
    subst hc; decide
  · intro c hc
    have hm : c ∈ '@' :: name := List.mem_of_getLast?_eq_some hc
    rcases List.mem_cons.1 hm with h | h
    · subst h; decide
    · exact (hname c h).2

/-! ## Lemmas on the handlers -/

theorem annotationProcessor_at (jsonParse : Str → Except JsError JVal) (s : State)
    (block : Bool) (text : Str) (start endPos : Nat)
    (h : (cleanText block text).head? = some '@')
    (hp : ∀ m, matchParam (cleanText block text) = some m → ∃ v, jsonParse m.group1 = .ok v) :
    ∃ (label : Str) (params : JVal),
      annotationProcessor jsonParse s block text start endPos =
        .ok { s with
          annotatedLines := s.annotatedLines ++ [(acorn.getLineInfo s.source endPos).line + 1]
          annotationBlocks := s.annotationBlocks ++
            [{ line := (acorn.getLineInfo s.source endPos).line + 1,
               annotation := label, params := params, fn := none }] } := by
  cases hm : matchParam (cleanText block text) with
  | none =>
    exact ⟨(cleanText block text).drop 1, .obj [], by
      simp only [annotationProcessor, h, hm, if_true]⟩
  | some m =>
    obtain ⟨v, hv⟩ := hp m hm
    exact ⟨removeParam ((cleanText block text).drop 1), if v.truthy then v else .obj [], by
      simp only [annotationProcessor, h, hm, hv, if_true]⟩

theorem indexOf_singleton (a b : Nat) : indexOf [a] b = if b = a then some 0 else none := by
  by_cases h : b = a
  · subst h; simp [indexOf]
  · have h' : a ≠ b := fun e => h e.symm
    simp [indexOf, h, h']

theorem chain_snoc (start : Nat) (x0 : Str) (zs : List (Nat × Str)) (z : Nat × Str) :
    chain start x0 (zs ++ [z]) = .MemberExpression start (chain start x0 zs) (.Identifier z.1 z.2) := by
  simp [chain, List.foldl_append]

theorem member_keys_of_chain (start : Nat) (x0 : Str) (hx0 : x0 ≠ []) (zs : List (Nat × Str))
    (z : Nat × Str) (acc : List Key) :
    MemberExpression.getContextRecursive (chain start x0 (zs ++ [z])) acc =
      .ok (acc ++ some x0 :: (zs.map (fun x => some x.2) ++ [some z.2])) := by
  induction zs using List.reverseRecOn generalizing z with
  | nil =>
    have h : x0.isEmpty = false := by cases x0 <;> simp_all
    simp [chain, MemberExpression.getContextRecursive, pushName, Expr.name, h]
  | append_singleton ws w ih =>
    have ih' := ih w
    rw [chain_snoc] at ih'
    rw [chain_snoc, chain_snoc]
    simp only [MemberExpression.getContextRecursive, ih', pushName, Expr.name]
    simp

theorem setFn_ok (s : State) (index : Nat) (fn : Fn) (h : index < s.annotationBlocks.length) :
    ∃ s', setFn s index fn = .ok s' ∧ s'.source = s.source ∧
      s'.annotatedLines = s.annotatedLines ∧
      s'.annotationBlocks.length = s.annotationBlocks.length ∧
      (s'.annotationBlocks[index]?).map (fun b => b.fn) = some (some fn) := by
  have hb : s.annotationBlocks[index]? = some (s.annotationBlocks[index]) := List.getElem?_eq_getElem h
  refine ⟨{ s with annotationBlocks :=
      s.annotationBlocks.set index { s.annotationBlocks[index] with fn := some fn } },
    by simp only [setFn, hb], rfl, rfl, by simp, ?_⟩
  simp [List.getElem?_set, h]

theorem astWalker_chain (G : Graph) (s : State) (start : Nat) (x0 : Str) (zs : List (Nat × Str))
    (z : Nat × Str) :
    astWalker G s (.Expression (chain start x0 (zs ++ [z]))) =
      MemberExpression G s (chain start x0 (zs ++ [z])) := by
  rw [chain_snoc]; rfl

theorem take_succ_of_lt {α : Type} (l : List α) (j : Nat) (h : j < l.length) :
    l.take (j + 1) = l.take j ++ [l[j]] := by
  rw [List.take_succ, List.getElem?_eq_getElem h]; rfl

theorem evalPath_cons_some {G : Graph} {v w : Val} {x : Str} {xs : List Str}
    (h : evalPath G v (x :: xs) = some w) :
    ∃ id, v = .ref id ∧ evalPath G (G.get id x) xs = some w := by
  cases v with
  | undefined => simp [evalPath] at h
  | null => simp [evalPath] at h
  | ref id => exact ⟨id, rfl, by simpa [evalPath] using h⟩

theorem evalPath_append (G : Graph) (v : Val) (p q : List Str) :
    evalPath G v (p ++ q) = (evalPath G v p).bind (fun u => evalPath G u q) := by
  induction p generalizing v with
  | nil => simp [evalPath]
  | cons x xs ih =>
    cases v with
    | undefined => simp [evalPath]
    | null => simp [evalPath]
    | ref id => simpa [evalPath] using ih (G.get id x)

theorem shiftLoop_evalPath (G : Graph) (keys : List Str) (last : Str) (v w : Val)
    (h : evalPath G v (keys ++ [last]) = some w) :
    ∃ id, evalPath G v keys = some (.ref id) ∧
      shiftLoop G v ((keys ++ [last]).map some) = .ok (.ref id, some last) ∧
      G.get id last = w := by
  induction keys generalizing v with
  | nil =>
    obtain ⟨id, rfl, hw⟩ := evalPath_cons_some h
    exact ⟨id, rfl, rfl, by simpa [evalPath] using hw⟩
  | cons k ks ih =>
    obtain ⟨id0, rfl, hw⟩ := evalPath_cons_some h
    obtain ⟨id, h1, h2, h3⟩ := ih (G.get id0 k) hw
    refine ⟨id, by simpa [evalPath] using h1, ?_, h3⟩
    have hne : G.get id0 k ≠ .undefined := by
      intro e
      rw [e] at hw
      cases ks <;> simp [evalPath] at hw
    cases hks : (ks ++ [last]).map some with
    | nil => cases ks <;> simp at hks
    | cons k2 rest =>
      rw [hks] at h2
      simp only [List.cons_append, List.map_cons, hks, shiftLoop, getProp, keyStr,
        Option.getD_some, hne, if_false, h2]

theorem getFunctionContext_path (G : Graph) (keys : List Str) (last : Str) (w : Val)
    (h : evalPath G window (keys ++ [last]) = some w) :
    ∃ id, evalPath G window keys = some (.ref id) ∧
      getFunctionContext G (.value window) (.array ((keys ++ [last]).map some)) =
        .ok ⟨.ref id, some last, some (typeofFunction G w)⟩ := by
  obtain ⟨id, h1, h2, h3⟩ := shiftLoop_evalPath G keys last window w h
  refine ⟨id, h1, ?_⟩
  simp only [getFunctionContext, h2, getProp, keyStr, Option.getD_some, h3]

theorem MemberExpression_chain (G : Graph) (s : State) (start : Nat) (x0 : Str) (hx0 : x0 ≠ [])
    (zs : List (Nat × Str)) (z : Nat × Str) (index : Nat) (w : Val)
    (hline : indexOf s.annotatedLines (acorn.getLineInfo s.source start).line = some index)
    (h : evalPath G window (x0 :: zs.map (fun x => x.2) ++ [z.2]) = some w) :
    ∃ id, evalPath G window (x0 :: zs.map (fun x => x.2)) = some (.ref id) ∧
      MemberExpression G s (chain start x0 (zs ++ [z])) =
        if typeofFunction G w = true then setFn s index ⟨.ref id, some z.2, some true⟩
        else .ok s := by
  obtain ⟨id, h1, h2⟩ := getFunctionContext_path G (x0 :: zs.map (fun x => x.2)) z.2 w h
  refine ⟨id, h1, ?_⟩
  have hs : (chain start x0 (zs ++ [z])).start = start := by rw [chain_snoc]; rfl
  have hk : some x0 :: (zs.map (fun x => some x.2) ++ [some z.2]) =
      ((x0 :: zs.map (fun x => x.2)) ++ [z.2]).map some := by simp
  simp only [MemberExpression, hs, hline, member_keys_of_chain start x0 hx0 zs z [],
    List.nil_append, hk, h2]
  by_cases hw : typeofFunction G w = true
  · simp [hw]
  · simp [hw]

theorem member_chain_inner_visit (G : Graph) (s : State) (start : Nat) (x0 : Str) (hx0 : x0 ≠ [])
    (ys : List (Nat × Str)) (y : Nat × Str) (index : Nat) (ctx : Val)
    (hline : indexOf s.annotatedLines (acorn.getLineInfo s.source start).line = some index)
    (hctx : evalPath G window (x0 :: ys.map (fun x => x.2)) = some ctx)
    (hinner : ∀ k g, 1 ≤ k → k ≤ ys.length →
      evalPath G window (x0 :: (ys.map (fun x => x.2)).take k) = some (.ref g) →
      G.isFunction g = false)
    (k : Nat) (hk1 : 1 ≤ k) (hk2 : k ≤ ys.length) :
    astWalker G s (.Expression (chain start x0 ((ys ++ [y]).take k))) = .ok s := by
  obtain ⟨j, rfl⟩ : ∃ j, k = j + 1 := ⟨k - 1, by omega⟩
  have hj : j < ys.length := by omega
  rw [List.take_append_of_le_length hk2, take_succ_of_lt ys j hj, astWalker_chain]
  have hnames : x0 :: (ys.take j).map (fun x => x.2) ++ [(ys[j]).2] =
      x0 :: (ys.map (fun x => x.2)).take (j + 1) := by
    rw [take_succ_of_lt (ys.map (fun x => x.2)) j (by simpa using hj)]; simp [List.map_take]
  have hsplit : x0 :: ys.map (fun x => x.2) =
      (x0 :: (ys.map (fun x => x.2)).take (j + 1)) ++ (ys.map (fun x => x.2)).drop (j + 1) := by
    simp
  rw [hsplit, evalPath_append] at hctx
  cases hu : evalPath G window (x0 :: (ys.map (fun x => x.2)).take (j + 1)) with
  | none => rw [hu] at hctx; simp at hctx
  | some u =>
    obtain ⟨id, -, hme⟩ := MemberExpression_chain G s start x0 hx0 (ys.take j) ys[j] index u hline
      (by rw [hnames]; exact hu)
    rw [hme]
    have hnf : typeofFunction G u = false := by
      cases u with
      | undefined => rfl
      | null => rfl
      | ref g => exact hinner (j + 1) g hk1 hk2 hu
    simp [hnf]

theorem indexOf_first (l : List Nat) (a i : Nat) (hi : l[i]? = some a)
    (hfirst : ∀ j, j < i → l[j]? ≠ some a) : indexOf l a = some i := by
  induction l generalizing i with
  | nil => simp at hi
  | cons b rest ih =>
    cases i with
    | zero =>
      simp only [List.getElem?_cons_zero, Option.some.injEq] at hi
      simp [indexOf, hi]
    | succ n =>
      have hb : b ≠ a := by
        have := hfirst 0 (Nat.succ_pos n)
        simpa using this
      have hrest := ih n (by simpa using hi) (fun j hj => by
        have := hfirst (j + 1) (Nat.succ_lt_succ hj)
        simpa using this)
      simp [indexOf, hb, hrest]

theorem onComments_malformed (jsonParse : Str → Except JsError JVal) (pre post : List Comment)
    (c : Comment) (e : JsError)
    (hc : ∀ s, annotationProcessor jsonParse s c.block c.text c.start c.endPos = .error e)
    (s : State) :
    (onComments jsonParse (pre ++ c :: post) s).1 = (onComments jsonParse pre s).1 ∧
    (onComments jsonParse (pre ++ c :: post) s).2.isSome = true := by
  induction pre generalizing s with
  | nil => simp [onComments, hc s]
  | cons d ds ih =>
    cases hd : annotationProcessor jsonParse s d.block d.text d.start d.endPos with
    | error e' => simp [onComments, hd]
    | ok s' => simpa [onComments, hd] using ih s'

mutual
theorem members_of_quiet_value (s : State) :
    ∀ (value key : Expr) (ctxArray : List Key), quietValue s.source s.annotatedLines value = true →
      VariableDeclaration.getContextRecursive s key value ctxArray = []
  | .ObjectExpression _ properties, key, ctxArray, h => by
    simp only [VariableDeclaration.getContextRecursive]
    exact members_of_quiet_properties s properties _ (by simpa [quietValue] using h)
  | .FunctionExpression start, key, ctxArray, h => by
    simp only [quietValue, Option.isNone_iff_eq_none] at h
    simp [VariableDeclaration.getContextRecursive, h]
  | .Identifier _ _, _, _, _ => by simp [VariableDeclaration.getContextRecursive]
  | .MemberExpression _ _ _, _, _, _ => by simp [VariableDeclaration.getContextRecursive]
  | .CallExpression _ _, _, _, _ => by simp [VariableDeclaration.getContextRecursive]
  | .Other _, _, _, _ => by simp [VariableDeclaration.getContextRecursive]
theorem members_of_quiet_properties (s : State) :
    ∀ (properties : List (Expr × Expr)) (ctxArray : List Key),
      quietProperties s.source s.annotatedLines properties = true → forProperties s properties ctxArray = []
  | [], _, _ => by simp [forProperties]
  | (key, value) :: rest, ctxArray, h => by
    simp only [quietProperties, Bool.and_eq_true] at h
    simp [forProperties, members_of_quiet_value s value key ctxArray h.1,
      members_of_quiet_properties s rest ctxArray h.2]
end

theorem forProperties_append (s : State) (a b : List (Expr × Expr)) (ctxArray : List Key) :
    forProperties s (a ++ b) ctxArray = forProperties s a ctxArray ++ forProperties s b ctxArray := by
  induction a with
  | nil => simp [forProperties]
  | cons p ps ih =>
    obtain ⟨k, v⟩ := p
    simp [forProperties, ih]

theorem flatten_members (s : State) (properties : List (Expr × Expr)) :
    (properties.map (fun p => VariableDeclaration.getContextRecursive s p.1 p.2 [])).flatten =
      forProperties s properties [] := by
  induction properties with
  | nil => simp [forProperties]
  | cons p ps ih =>
    obtain ⟨k, v⟩ := p
    simp [forProperties, ih]

theorem members_of_nested (s : State) (fstart index : Nat)
    (hline : indexOf s.annotatedLines (acorn.getLineInfo s.source fstart).line = some index)
    (levels : List Level)
    (hkeys : ∀ l ∈ levels, l.key ≠ [])
    (hquiet : ∀ l ∈ levels, quietProperties s.source s.annotatedLines l.before = true ∧
      quietProperties s.source s.annotatedLines l.after = true)
    (kstart : Nat) (key : Str) (hkey : key ≠ []) (ctxArray : List Key) :
    VariableDeclaration.getContextRecursive s (.Identifier kstart key) (nestedLiteral levels fstart) ctxArray =
      [{ line := (acorn.getLineInfo s.source fstart).line,
         ctxArray := .array (ctxArray ++ some key :: levels.map (fun l => some l.key)) }] := by
  have hk : key.isEmpty = false := by cases key <;> simp_all
  induction levels generalizing kstart key ctxArray with
  | nil => simp [nestedLiteral, VariableDeclaration.getContextRecursive, hline, pushName, Expr.name, hk]
  | cons l rest ih =>
    have hq := hquiet l (List.mem_cons_self _ _)
    have hlk := hkeys l (List.mem_cons_self _ _)
    have hlk' : l.key.isEmpty = false := by cases hl : l.key <;> simp_all
    simp only [nestedLiteral, VariableDeclaration.getContextRecursive, forProperties_append, forProperties,
      members_of_quiet_properties s l.before _ hq.1, members_of_quiet_properties s l.after _ hq.2,
      List.nil_append, List.append_nil, pushName, Expr.name, hk, Bool.false_eq_true, if_false]
    rw [ih (fun m hm => hkeys m (List.mem_cons_of_mem _ hm))
      (fun m hm => hquiet m (List.mem_cons_of_mem _ hm)) l.keyStart l.key hlk _ hlk']
    simp

theorem getFunctionContext_name_path (G : Graph) (root : Str) (keys : List Str) (last : Str)
    (w : Val) (h : evalPath G window (root :: keys ++ [last]) = some w) :
    ∃ id, evalPath G window (root :: keys) = some (.ref id) ∧
      getFunctionContext G (.name root) (.array ((keys ++ [last]).map some)) =
        .ok ⟨.ref id, some last, some (typeofFunction G w)⟩ := by
  have h' : evalPath G (G.get 0 root) (keys ++ [last]) = some w := by
    simpa [window, evalPath] using h
  obtain ⟨id, h1, h2, h3⟩ := shiftLoop_evalPath G keys last (G.get 0 root) w h'
  have hne : G.get 0 root ≠ .undefined := by
    intro e
    rw [e] at h'
    cases keys <;> simp [evalPath] at h'
  refine ⟨id, by simpa [window, evalPath] using h1, ?_⟩
  simp only [getFunctionContext, window, getProp, hne, if_false, h2, keyStr, Option.getD_some, h3]

theorem FunctionDeclaration_after_comment (jsonParse : Str → Except JsError JVal) (source : Str)
    (block : Bool) (text : Str) (start endPos fstart : Nat) (id : Expr)
    (hAt : (cleanText block text).head? = some '@')
    (hp : ∀ m, matchParam (cleanText block text) = some m → ∃ v, jsonParse m.group1 = .ok v) :
    ∃ r : Block, r.line = (acorn.getLineInfo source endPos).line + 1 ∧ r.fn = none ∧
      annotationProcessor jsonParse ⟨source, [], [], 0⟩ block text start endPos =
        .ok ⟨source, [r.line], [r], 0⟩ ∧
      FunctionDeclaration ⟨source, [r.line], [r], 0⟩ fstart id =
        .ok ⟨source, [r.line],
          [{ r with fn := if (acorn.getLineInfo source fstart).line = r.line
                          then some ⟨window, id.name, none⟩ else none }], 0⟩ := by
  obtain ⟨label, params, h⟩ :=
    annotationProcessor_at jsonParse ⟨source, [], [], 0⟩ block text start endPos hAt hp
  refine ⟨⟨(acorn.getLineInfo source endPos).line + 1, label, params, none⟩, rfl, rfl, ?_, ?_⟩
  · simpa using h
  · simp only [FunctionDeclaration, indexOf_singleton]
    by_cases hl : (acorn.getLineInfo source fstart).line = (acorn.getLineInfo source endPos).line + 1
    · simp [hl, setFn]
    · simp [hl]

theorem VariableDeclaration_after_comment (jsonParse : Str → Except JsError JVal) (G : Graph)
    (source : Str) (block : Bool) (text : Str) (start endPos rstart : Nat) (root : Str)
    (outer : List Level) (inner : Level) (fstart : Nat) (ctx : Val) (f : Nat)
    (hAt : (cleanText block text).head? = some '@')
    (hp : ∀ m, matchParam (cleanText block text) = some m → ∃ v, jsonParse m.group1 = .ok v)
    (hnext : (acorn.getLineInfo source fstart).line = (acorn.getLineInfo source endPos).line + 1)
    (hkeys : ∀ l ∈ outer ++ [inner], l.key ≠ [])
    (hquiet : ∀ l ∈ outer ++ [inner],
      quietProperties source [(acorn.getLineInfo source endPos).line + 1] l.before = true ∧
      quietProperties source [(acorn.getLineInfo source endPos).line + 1] l.after = true)
    (hctx : evalPath G window (root :: outer.map (fun l => l.key)) = some ctx)
    (hfun : evalPath G window (root :: outer.map (fun l => l.key) ++ [inner.key]) = some (.ref f))
    (hf : G.isFunction f = true) :
    ∃ r : Block, r.line = (acorn.getLineInfo source endPos).line + 1 ∧
      annotationProcessor jsonParse ⟨source, [], [], 0⟩ block text start endPos =
        .ok ⟨source, [r.line], [r], 0⟩ ∧
      VariableDeclaration G ⟨source, [r.line], [r], 0⟩
          [⟨.Identifier rstart root, some (nestedLiteral (outer ++ [inner]) fstart)⟩] =
        .ok ⟨source, [r.line], [{ r with fn := some ⟨ctx, some inner.key, some true⟩ }], 0⟩ := by
  obtain ⟨label, params, h⟩ :=
    annotationProcessor_at jsonParse ⟨source, [], [], 0⟩ block text start endPos hAt hp
  refine ⟨⟨(acorn.getLineInfo source endPos).line + 1, label, params, none⟩, rfl,
    by simpa using h, ?_⟩
  obtain ⟨l, rest, hl⟩ : ∃ l rest, outer ++ [inner] = l :: rest := by
    cases outer with
    | nil => exact ⟨inner, [], rfl⟩
    | cons a as => exact ⟨a, as ++ [inner], rfl⟩
  obtain ⟨id, hid, hres⟩ :=
    getFunctionContext_name_path G root (outer.map (fun l => l.key)) inner.key (.ref f) hfun
  have hcid : ctx = .ref id := by rw [hctx] at hid; exact Option.some.inj hid
  have hmap : (outer ++ [inner]).map (fun l => some l.key) =
      (outer.map (fun l => l.key) ++ [inner.key]).map some := by simp
  rw [hl] at hkeys hquiet hmap
  have hq := hquiet l (List.mem_cons_self _ _)
  have hline : indexOf [(acorn.getLineInfo source endPos).line + 1]
      (acorn.getLineInfo source fstart).line = some 0 := by
    simp [indexOf, hnext]
  have hb : forProperties ⟨source, [(acorn.getLineInfo source endPos).line + 1],
      [⟨(acorn.getLineInfo source endPos).line + 1, label, params, none⟩], 0⟩ l.before [] = [] :=
    members_of_quiet_properties _ l.before [] hq.1
  have ha : forProperties ⟨source, [(acorn.getLineInfo source endPos).line + 1],
      [⟨(acorn.getLineInfo source endPos).line + 1, label, params, none⟩], 0⟩ l.after [] = [] :=
    members_of_quiet_properties _ l.after [] hq.2
  have hcand := members_of_nested
    ⟨source, [(acorn.getLineInfo source endPos).line + 1],
      [⟨(acorn.getLineInfo source endPos).line + 1, label, params, none⟩], 0⟩
    fstart 0 hline rest (fun m hm => hkeys m (List.mem_cons_of_mem _ hm))
    (fun m hm => hquiet m (List.mem_cons_of_mem _ hm)) l.keyStart l.key
    (hkeys l (List.mem_cons_self _ _)) []
  simp only [List.nil_append, List.map_cons] at hmap hcand
  rw [hmap] at hcand
  simp only [typeofFunction, hf] at hres
  simp only [VariableDeclaration, declarationsLoop, hl, nestedLiteral, List.nil_append,
    flatten_members, forProperties_append, forProperties, hb, ha, hcand,
    List.append_nil, resolveMembers, ctxArg, hres, hline, setFn, if_true, hcid]
  simp

theorem process_of_phases {α : Type} (jsonParse : Str → Except JsError JVal) (G : Graph)
    (acorn : Acorn) (prev : State) (src : Str) (handlers : Option (Registry α))
    (nodes : List Node) (s1 s2 : State)
    (hv : (acorn.parse (trimSource src)).visits = .ok nodes)
    (h1 : onComments jsonParse (acorn.parse (trimSource src)).comments
      ⟨trimSource src, [], [], 0⟩ = (s1, none))
    (h2 : walk G nodes s1 = (s2, none)) :
    process jsonParse G acorn prev src handlers =
      ⟨s2, (dispatch (merge DefaultHandlers (handlers.getD [])) s2.annotationBlocks).1,
        (dispatch (merge DefaultHandlers (handlers.getD [])) s2.annotationBlocks).2⟩ := by
  unfold process
  simp only [h1, hv, h2]

/-! ## Lemmas on line information -/

theorem lineBreaks_ge (cs : Str) (pos : Nat) : ∀ b ∈ lineBreaks cs pos, pos ≤ b.1 := by
  induction cs, pos using lineBreaks.induct with
  | case1 pos => simp [lineBreaks]
  | case2 cs pos ih =>
    intro b hb
    simp only [lineBreaks, List.mem_cons] at hb
    rcases hb with h | h
    · subst h; exact Nat.le_refl _
    · have := ih b h; omega
  | case3 c cs pos hne ht ih =>
    intro b hb
    rw [lineBreaks] at hb
    · simp only [ht, if_true, List.mem_cons] at hb
      rcases hb with h | h
      · subst h; exact Nat.le_refl _
      · have := ih b h; omega
    · exact hne
  | case4 c cs pos hne ht ih =>
    intro b hb
    rw [lineBreaks] at hb
    · simp only [ht, if_false] at hb
      have := ih b hb; omega
    · exact hne

theorem filter_lineBreaks_nil (cs : Str) (pos offset bound : Nat) (h : ¬ pos < offset)
    (hb : pos ≤ bound) :
    (lineBreaks cs bound).filter (fun b => decide (b.1 < offset)) = [] := by
  rw [List.filter_eq_nil_iff]
  intro b hmem
  have := lineBreaks_ge cs bound b hmem
  simp only [decide_eq_true_eq]
  omega

theorem getLast?_cons_getD {α : Type} (x : α) (l : List α) :
    (x :: l).getLast? = some (l.getLast?.getD x) := by
  induction l generalizing x with
  | nil => rfl
  | cons y ys ih => rw [List.getLast?_cons_cons, ih y]; simp [ih]

theorem lineLoop_lineBreaks (cs : Str) (pos offset line cur : Nat) :
    lineLoop cs pos offset line cur =
      (line + ((lineBreaks cs pos).filter (fun b => decide (b.1 < offset))).length,
       (offset : Int) -
         (((((lineBreaks cs pos).filter (fun b => decide (b.1 < offset))).getLast?.map
            (fun b => b.2)).getD cur : Nat) : Int)) := by
  induction cs, pos, offset, line, cur using lineLoop.induct with
  | case1 pos offset line cur => simp [lineLoop, lineBreaks]
  | case2 cs pos offset line cur h ih =>
    simp only [lineLoop, h, if_true, ih, lineBreaks, List.filter_cons, decide_True,
      List.length_cons, getLast?_cons_getD, Option.map_some', Option.getD_some]
    refine Prod.ext (by simp; omega) ?_
    cases ((lineBreaks cs (pos + 2)).filter (fun b => decide (b.1 < offset))).getLast? <;> simp
  | case3 cs pos offset line cur h =>
    have hnil := filter_lineBreaks_nil cs pos offset (pos + 2) h (by omega)
    simp [lineLoop, h, lineBreaks, List.filter_cons, hnil]
  | case4 c cs pos offset line cur hne ht h ih =>
    rw [lineLoop, lineBreaks]
    · simp only [ht, h, if_true, ih, List.filter_cons, decide_True, List.length_cons,
        getLast?_cons_getD, Option.map_some', Option.getD_some]
      refine Prod.ext (by simp; omega) ?_
      cases ((lineBreaks cs (pos + 1)).filter (fun b => decide (b.1 < offset))).getLast? <;> simp
    · exact hne
    · exact hne
  | case5 c cs pos offset line cur hne ht h =>
    have hnil := filter_lineBreaks_nil cs pos offset (pos + 1) h (by omega)
    rw [lineLoop, lineBreaks]
    · simp [ht, h, List.filter_cons, hnil]
    · exact hne
    · exact hne
  | case6 c cs pos offset line cur hne ht ih =>
    rw [lineLoop, lineBreaks]
    · simp only [ht, Bool.false_eq_true, if_false, ih]
    · exact hne
    · exact hne

theorem getLineInfoFrom_zero (source : Str) (offset : Nat) :
    getLineInfoFrom 0 source offset = lineInfoSpec source offset := by
  simp only [getLineInfoFrom, List.drop_zero, lineLoop_lineBreaks, lineInfoSpec, Nat.add_comm]

/-! ## Lemmas on handler objects -/

theorem lookup_cons {α : Type} (k0 : Str) (v0 : Handler α) (rest : Registry α) (k : Str) :
    lookup ((k0, v0) :: rest) k = if k0 = k then some v0 else lookup rest k := by
  unfold lookup
  rw [List.find?_cons]
  by_cases h : k0 = k
  · simp only [h, decide_True, Option.map_some', if_true]
  · simp only [h, decide_False, if_false]

theorem lookup_assign_self {α : Type} (d : Registry α) (k : Str) (v : Handler α) :
    lookup (assign d k v) k = some v := by
  induction d with
  | nil => simp only [assign, lookup_cons, if_true]
  | cons p rest ih =>
    obtain ⟨k0, v0⟩ := p
    by_cases h : k0 = k
    · simp only [assign, h, if_true, lookup_cons]
    · simp only [assign, h, if_false, lookup_cons, ih]

theorem lookup_assign_other {α : Type} (d : Registry α) (k k' : Str) (v : Handler α)
    (h : k ≠ k') : lookup (assign d k' v) k = lookup d k := by
  induction d with
  | nil =>
    have h' : ¬ k' = k := fun e => h e.symm
    simp only [assign, lookup_cons, h', if_false]
  | cons p rest ih =>
    obtain ⟨k0, v0⟩ := p
    by_cases h0 : k0 = k'
    · subst h0
      have hk : ¬ k0 = k := fun e => h e.symm
      simp only [assign, if_true, lookup_cons, hk, if_false]
    · simp only [assign, h0, if_false, lookup_cons, ih]

theorem assign_of_lookup {α : Type} (d : Registry α) (k : Str) (v : Handler α)
    (h : lookup d k = some v) : assign d k v = d := by
  induction d with
  | nil => simp [lookup] at h
  | cons p rest ih =>
    obtain ⟨k0, v0⟩ := p
    rw [lookup_cons] at h
    by_cases h0 : k0 = k
    · simp only [h0, if_true, Option.some.injEq] at h
      simp only [assign, h0, if_true, h]
    · simp only [h0, if_false] at h
      simp only [assign, h0, if_false, ih h]

theorem merge_DefaultHandlers_idem {α : Type} (h : Registry α) :
    merge DefaultHandlers (merge DefaultHandlers h) = merge DefaultHandlers h := by
  have hne : "Info".toList ≠ "Instrument".toList := by decide
  simp only [merge, DefaultHandlers, List.foldl_cons, List.foldl_nil]
  rw [assign_of_lookup _ "Info".toList .Info
    (by rw [lookup_assign_other _ _ _ _ hne, lookup_assign_self])]
  rw [assign_of_lookup _ "Instrument".toList .Instrument (lookup_assign_self _ _ _)]

/-! ## Lemmas on the visitors, continued -/

theorem declarationsLoop_no_init (s : State) (pre post : List VariableDeclarator) (id : Expr)
    (ctx : Option Str) (members : List Member) :
    declarationsLoop s (pre ++ ⟨id, none⟩ :: post) ctx members = .error .TypeError := by
  induction pre generalizing ctx members with
  | nil => simp only [List.nil_append, declarationsLoop]
  | cons d ds ih =>
    obtain ⟨did, dinit⟩ := d
    cases dinit with
    | none => simp only [List.cons_append, declarationsLoop]
    | some e => cases e <;> simp only [List.cons_append, declarationsLoop, List.append_eq, ih]

theorem getFunctionContext_value_path (G : Graph) (root : Val) (keys : List Str) (leaf : Str)
    (id : Nat) (h : evalPath G root keys = some (.ref id)) :
    getFunctionContext G (.value root) (.array ((keys ++ [leaf]).map some)) =
      .ok ⟨.ref id, some leaf, some (typeofFunction G (G.get id leaf))⟩ := by
  have hfull : evalPath G root (keys ++ [leaf]) = some (G.get id leaf) := by
    rw [evalPath_append, h]
    simp [evalPath]
  obtain ⟨id', h1, h2, h3⟩ := shiftLoop_evalPath G keys leaf root (G.get id leaf) hfull
  have hid : id' = id := by
    rw [h] at h1
    cases h1
    rfl
  subst hid
  simp only [getFunctionContext, h2, getProp, keyStr, Option.getD_some]

theorem getFunctionContext_skips_missing (G : Graph) (oid : Nat) (k : Str) (rest : List Key)
    (hrest : rest ≠ []) (hk : G.get oid k = .undefined) :
    getFunctionContext G (.value (.ref oid)) (.array (some k :: rest)) =
      getFunctionContext G (.value (.ref oid)) (.array rest) := by
  cases rest with
  | nil => exact absurd rfl hrest
  | cons k2 rest' =>
    simp only [getFunctionContext, shiftLoop, getProp, keyStr, Option.getD_some, hk, if_true]

theorem pushName_identifier (ctxArray : List Key) (key : Expr)
    (h : (!(keyName key).isEmpty && key.name.isSome) = true) :
    pushName ctxArray key = ctxArray ++ [some (keyName key)] := by
  cases key <;> simp_all [pushName, Expr.name, keyName]

mutual
theorem members_of_value (s : State) :
    ∀ (value key : Expr) (ctxArray : List Key),
      (!(keyName key).isEmpty && key.name.isSome) = true → identifierKeys value = true →
      VariableDeclaration.getContextRecursive s key value ctxArray =
        ((functionPaths value).filter (fun p =>
            (indexOf s.annotatedLines (acorn.getLineInfo s.source p.2).line).isSome)).map
          (fun p => ⟨(acorn.getLineInfo s.source p.2).line,
            .array (ctxArray ++ some (keyName key) :: p.1.map some)⟩)
  | .ObjectExpression _ properties, key, ctxArray, hk, hv => by
    simp only [VariableDeclaration.getContextRecursive, functionPaths, pushName_identifier _ _ hk]
    rw [members_of_properties s properties _ (by simpa [identifierKeys] using hv)]
    simp
  | .FunctionExpression start, key, ctxArray, hk, _ => by
    simp only [VariableDeclaration.getContextRecursive, functionPaths, pushName_identifier _ _ hk]
    by_cases h : (indexOf s.annotatedLines (acorn.getLineInfo s.source start).line).isSome = true
    · simp [h]
    · simp [h]
  | .Identifier _ _, _, _, _, _ => by simp [VariableDeclaration.getContextRecursive, functionPaths]
  | .MemberExpression _ _ _, _, _, _, _ => by
    simp [VariableDeclaration.getContextRecursive, functionPaths]
  | .CallExpression _ _, _, _, _, _ => by
    simp [VariableDeclaration.getContextRecursive, functionPaths]
  | .Other _, _, _, _, _ => by simp [VariableDeclaration.getContextRecursive, functionPaths]
theorem members_of_properties (s : State) :
    ∀ (properties : List (Expr × Expr)) (ctxArray : List Key),
      identifierKeysOf properties = true →
      forProperties s properties ctxArray =
        ((propertyPaths properties).filter (fun p =>
            (indexOf s.annotatedLines (acorn.getLineInfo s.source p.2).line).isSome)).map
          (fun p => ⟨(acorn.getLineInfo s.source p.2).line,
            .array (ctxArray ++ p.1.map some)⟩)
  | [], _, _ => by simp [forProperties, propertyPaths]
  | (key, value) :: rest, ctxArray, h => by
    simp only [identifierKeysOf, Bool.and_eq_true] at h
    obtain ⟨⟨⟨h1, h2⟩, h3⟩, h4⟩ := h
    simp only [forProperties, propertyPaths, List.filter_append, List.map_append,
      members_of_value s value key ctxArray (by simp [h1, h2]) h3,
      members_of_properties s rest ctxArray h4, List.filter_map, List.map_map]
    rfl
end

/-! ## The two arrays stay aligned -/

theorem map_line_set (l : List Block) (i : Nat) (b : Block) (fn : Option Fn)
    (h : l[i]? = some b) :
    (l.set i { b with fn := fn }).map (fun r => r.line) = l.map (fun r => r.line) := by
  induction l generalizing i with
  | nil => rfl
  | cons a as ih =>
    cases i with
    | zero =>
      simp only [List.getElem?_cons_zero, Option.some.injEq] at h
      subst h
      rfl
    | succ n =>
      simp only [List.getElem?_cons_succ] at h
      simp only [List.set_cons_succ, List.map_cons, ih n h]

theorem map_line_eraseIdx (l : List Block) (i : Nat) :
    (l.eraseIdx i).map (fun r => r.line) = (l.map (fun r => r.line)).eraseIdx i := by
  induction l generalizing i with
  | nil => rfl
  | cons a as ih =>
    cases i with
    | zero => rfl
    | succ n => simp only [List.eraseIdx_cons_succ, List.map_cons, ih n]

theorem aligned_annotationProcessor (jsonParse : Str → Except JsError JVal) (s s' : State)
    (block : Bool) (text : Str) (start endPos : Nat)
    (h : annotationProcessor jsonParse s block text start endPos = .ok s')
    (hs : s.annotatedLines = s.annotationBlocks.map (fun r => r.line)) :
    s'.annotatedLines = s'.annotationBlocks.map (fun r => r.line) := by
  simp only [annotationProcessor] at h
  split at h
  · split at h
    · split at h
      · cases h
      · cases h
        simp [hs]
    · cases h
      simp [hs]
  · cases h
    exact hs

theorem aligned_setFn (s s' : State) (index : Nat) (fn : Fn) (h : setFn s index fn = .ok s')
    (hs : s.annotatedLines = s.annotationBlocks.map (fun r => r.line)) :
    s'.annotatedLines = s'.annotationBlocks.map (fun r => r.line) := by
  simp only [setFn] at h
  cases hb : s.annotationBlocks[index]? with
  | none => rw [hb] at h; cases h
  | some b =>
    rw [hb] at h
    cases h
    simp only [map_line_set _ _ _ _ hb, hs]

theorem aligned_splice (s : State) (index : Option Nat)
    (hs : s.annotatedLines = s.annotationBlocks.map (fun r => r.line)) :
    (splice s index).annotatedLines = (splice s index).annotationBlocks.map (fun r => r.line) := by
  cases index with
  | none => simp only [splice, hs, List.map_dropLast]
  | some i => simp only [splice, hs, map_line_eraseIdx]

theorem aligned_resolveMembers (G : Graph) (ctx : Option Str) (members : List Member)
    (s s' : State) (h : resolveMembers G ctx members s = .ok s')
    (hs : s.annotatedLines = s.annotationBlocks.map (fun r => r.line)) :
    s'.annotatedLines = s'.annotationBlocks.map (fun r => r.line) := by
  induction members generalizing s with
  | nil =>
    simp only [resolveMembers] at h
    cases h
    exact hs
  | cons m rest ih =>
    simp only [resolveMembers] at h
    cases hc : getFunctionContext G (ctxArg ctx) m.ctxArray with
    | error e => rw [hc] at h; cases h
    | ok ctxObj =>
      rw [hc] at h
      by_cases hf : ctxObj.isFunction = some true
      · simp only [hf, if_true] at h
        cases hi : indexOf s.annotatedLines m.line with
        | none => simp only [hi] at h; cases h
        | some i =>
          simp only [hi] at h
          cases hset : setFn s i ctxObj with
          | error e => simp only [hset] at h; cases h
          | ok t =>
            simp only [hset] at h
            exact ih t h (aligned_setFn s t i ctxObj hset hs)
      · simp only [hf, if_false] at h
        exact ih _ h (aligned_splice s _ hs)

theorem aligned_astWalker (G : Graph) (s s' : State) (node : Node)
    (h : astWalker G s node = .ok s')
    (hs : s.annotatedLines = s.annotationBlocks.map (fun r => r.line)) :
    s'.annotatedLines = s'.annotationBlocks.map (fun r => r.line) := by
  cases node with
  | FunctionDeclaration start id =>
    simp only [astWalker, FunctionDeclaration] at h
    cases hi : indexOf s.annotatedLines (acorn.getLineInfo s.source start).line with
    | none => simp only [hi] at h; cases h; exact hs
    | some i => simp only [hi] at h; exact aligned_setFn s s' i _ h hs
  | VariableDeclaration start declarations =>
    simp only [astWalker, VariableDeclaration] at h
    cases hd : declarationsLoop s declarations none [] with
    | error e => simp only [hd] at h; cases h
    | ok r =>
      obtain ⟨ctx, members⟩ := r
      simp only [hd] at h
      exact aligned_resolveMembers G ctx members s s' h hs
  | Expression e =>
    cases e with
    | MemberExpression start o p =>
      simp only [astWalker, MemberExpression] at h
      cases hi : indexOf s.annotatedLines
          (acorn.getLineInfo s.source (Expr.MemberExpression start o p).start).line with
      | none => simp only [hi] at h; cases h; exact hs
      | some i =>
        simp only [hi] at h
        cases hm : MemberExpression.getContextRecursive (Expr.MemberExpression start o p) [] with
        | error e => simp only [hm] at h; cases h
        | ok ctxArray =>
          simp only [hm] at h
          cases hc : getFunctionContext G (.value window) (.array ctxArray) with
          | error e => simp only [hc] at h; cases h
          | ok ctxObj =>
            simp only [hc] at h
            by_cases hf : ctxObj.isFunction = some true
            · simp only [hf, if_true] at h
              exact aligned_setFn s s' i ctxObj h hs
            · simp only [hf, if_false] at h
              cases h
              exact hs
    | CallExpression start callee =>
      simp only [astWalker, CallExpression] at h
      cases hi : indexOf s.annotatedLines (acorn.getLineInfo s.source start).line with
      | none => simp only [hi] at h; cases h; exact hs
      | some i =>
        simp only [hi] at h
        cases hb : s.annotationBlocks[i]? with
        | none => simp only [hb] at h; cases h
        | some b =>
          simp only [hb] at h
          by_cases hn : b.fn.isNone = true
          · simp only [hn, if_true] at h
            exact aligned_setFn s s' i _ h hs
          · simp only [hn, if_false] at h
            cases h
            exact hs
    | Identifier _ _ => simp only [astWalker] at h; cases h; exact hs
    | FunctionExpression _ => simp only [astWalker] at h; cases h; exact hs
    | ObjectExpression _ _ => simp only [astWalker] at h; cases h; exact hs
    | Other _ => simp only [astWalker] at h; cases h; exact hs

theorem aligned_of_reachable (jsonParse : Str → Except JsError JVal) (G : Graph) (src : Str)
    (s : State) (h : Reachable jsonParse G src s) :
    s.annotatedLines = s.annotationBlocks.map (fun r => r.line) := by
  induction h with
  | init prev => rfl
  | comment s s' block text start endPos _ hstep ih =>
    exact aligned_annotationProcessor jsonParse s s' block text start endPos hstep ih
  | visit s s' node _ hstep ih => exact aligned_astWalker G s s' node hstep ih

/-! ## Only `Remarker.process` writes `source` and `lastIndex` -/

theorem frame_annotationProcessor (jsonParse : Str → Except JsError JVal) (s s' : State)
    (block : Bool) (text : Str) (start endPos : Nat)
    (h : annotationProcessor jsonParse s block text start endPos = .ok s') :
    s'.source = s.source ∧ s'.lastIndex = s.lastIndex := by
  simp only [annotationProcessor] at h
  split at h
  · split at h
    · split at h
      · cases h
      · cases h
        exact ⟨rfl, rfl⟩
    · cases h
      exact ⟨rfl, rfl⟩
  · cases h
    exact ⟨rfl, rfl⟩

theorem frame_setFn (s s' : State) (index : Nat) (fn : Fn) (h : setFn s index fn = .ok s') :
    s'.source = s.source ∧ s'.lastIndex = s.lastIndex ∧
    s'.annotatedLines = s.annotatedLines ∧
    s'.annotationBlocks.map (fun r => (r.line, Block.annotation r, r.params)) =
      s.annotationBlocks.map (fun r => (r.line, Block.annotation r, r.params)) := by
  simp only [setFn] at h
  cases hb : s.annotationBlocks[index]? with
  | none => rw [hb] at h; cases h
  | some b =>
    rw [hb] at h
    cases h
    refine ⟨rfl, rfl, rfl, ?_⟩
    simp only
    generalize s.annotationBlocks = l at hb
    induction l generalizing index with
    | nil => rfl
    | cons a as ih =>
      cases index with
      | zero =>
        simp only [List.getElem?_cons_zero, Option.some.injEq] at hb
        subst hb
        rfl
      | succ n =>
        simp only [List.getElem?_cons_succ] at hb
        simp only [List.set_cons_succ, List.map_cons, ih n hb]

theorem frame_splice (s : State) (index : Option Nat) :
    (splice s index).source = s.source ∧ (splice s index).lastIndex = s.lastIndex := by
  cases index <;> exact ⟨rfl, rfl⟩

theorem frame_resolveMembers (G : Graph) (ctx : Option Str) (members : List Member)
    (s s' : State) (h : resolveMembers G ctx members s = .ok s') :
    s'.source = s.source ∧ s'.lastIndex = s.lastIndex := by
  induction members generalizing s with
  | nil =>
    simp only [resolveMembers] at h
    cases h
    exact ⟨rfl, rfl⟩
  | cons m rest ih =>
    simp only [resolveMembers] at h
    cases hc : getFunctionContext G (ctxArg ctx) m.ctxArray with
    | error e => rw [hc] at h; cases h
    | ok ctxObj =>
      rw [hc] at h
      by_cases hf : ctxObj.isFunction = some true
      · simp only [hf, if_true] at h
        cases hi : indexOf s.annotatedLines m.line with
        | none => simp only [hi] at h; cases h
        | some i =>
          simp only [hi] at h
          cases hset : setFn s i ctxObj with
          | error e => simp only [hset] at h; cases h
          | ok t =>
            simp only [hset] at h
            obtain ⟨a1, a2⟩ := ih t h
            obtain ⟨b1, b2, -, -⟩ := frame_setFn s t i ctxObj hset
            exact ⟨a1.trans b1, a2.trans b2⟩
      · simp only [hf, if_false] at h
        obtain ⟨a1, a2⟩ := ih _ h
        obtain ⟨b1, b2⟩ := frame_splice s (indexOf s.annotatedLines m.line)
        exact ⟨a1.trans b1, a2.trans b2⟩

/-- The visitors `FunctionDeclaration`, `MemberExpression` and `CallExpression` return
with the same `annotatedLines` and with the same records in the same order, their
`fn` apart; on a node whose start line is not annotated they change nothing. -/
theorem visitors_keep_records (G : Graph) (s s' : State) (node : Node)
    (hnode : ∀ start declarations, node ≠ .VariableDeclaration start declarations)
    (h : astWalker G s node = .ok s') :
    s'.source = s.source ∧ s'.lastIndex = s.lastIndex ∧
    s'.annotatedLines = s.annotatedLines ∧
    s'.annotationBlocks.map (fun r => (r.line, Block.annotation r, r.params)) =
      s.annotationBlocks.map (fun r => (r.line, Block.annotation r, r.params)) := by
  cases node with
  | FunctionDeclaration start id =>
    simp only [astWalker, FunctionDeclaration] at h
    cases hi : indexOf s.annotatedLines (acorn.getLineInfo s.source start).line with
    | none => simp only [hi] at h; cases h; exact ⟨rfl, rfl, rfl, rfl⟩
    | some i => simp only [hi] at h; exact frame_setFn s s' i _ h
  | VariableDeclaration start declarations => exact absurd rfl (hnode start declarations)
  | Expression e =>
    cases e with
    | MemberExpression start o p =>
      simp only [astWalker, MemberExpression] at h
      cases hi : indexOf s.annotatedLines
          (acorn.getLineInfo s.source (Expr.MemberExpression start o p).start).line with
      | none => simp only [hi] at h; cases h; exact ⟨rfl, rfl, rfl, rfl⟩
      | some i =>
        simp only [hi] at h
        cases hm : MemberExpression.getContextRecursive (Expr.MemberExpression start o p) [] with
        | error e => simp only [hm] at h; cases h
        | ok ctxArray =>
          simp only [hm] at h
          cases hc : getFunctionContext G (.value window) (.array ctxArray) with
          | error e => simp only [hc] at h; cases h
          | ok ctxObj =>
            simp only [hc] at h
            by_cases hf : ctxObj.isFunction = some true
            · simp only [hf, if_true] at h
              exact frame_setFn s s' i ctxObj h
            · simp only [hf, if_false] at h
              cases h
              exact ⟨rfl, rfl, rfl, rfl⟩
    | CallExpression start callee =>
      simp only [astWalker, CallExpression] at h
      cases hi : indexOf s.annotatedLines (acorn.getLineInfo s.source start).line with
      | none => simp only [hi] at h; cases h; exact ⟨rfl, rfl, rfl, rfl⟩
      | some i =>
        simp only [hi] at h
        cases hb : s.annotationBlocks[i]? with
        | none => simp only [hb] at h; cases h
        | some b =>
          simp only [hb] at h
          by_cases hn : b.fn.isNone = true
          · simp only [hn, if_true] at h
            exact frame_setFn s s' i _ h
          · simp only [hn, if_false] at h
            cases h
            exact ⟨rfl, rfl, rfl, rfl⟩
    | Identifier _ _ => simp only [astWalker] at h; cases h; exact ⟨rfl, rfl, rfl, rfl⟩
    | FunctionExpression _ => simp only [astWalker] at h; cases h; exact ⟨rfl, rfl, rfl, rfl⟩
    | ObjectExpression _ _ => simp only [astWalker] at h; cases h; exact ⟨rfl, rfl, rfl, rfl⟩
    | Other _ => simp only [astWalker] at h; cases h; exact ⟨rfl, rfl, rfl, rfl⟩

theorem frame_astWalker (G : Graph) (s s' : State) (node : Node)
    (h : astWalker G s node = .ok s') :
    s'.source = s.source ∧ s'.lastIndex = s.lastIndex := by
  by_cases hv : ∃ start declarations, node = .VariableDeclaration start declarations
  · obtain ⟨start, declarations, rfl⟩ := hv
    simp only [astWalker, VariableDeclaration] at h
    cases hd : declarationsLoop s declarations none [] with
    | error e => simp only [hd] at h; cases h
    | ok r =>
      obtain ⟨ctx, members⟩ := r
      simp only [hd] at h
      exact frame_resolveMembers G ctx members s s' h
  · obtain ⟨h1, h2, -, -⟩ := visitors_keep_records G s s' node
      (fun start declarations e => hv ⟨start, declarations, e⟩) h
    exact ⟨h1, h2⟩

theorem lastIndex_of_reachable (jsonParse : Str → Except JsError JVal) (G : Graph) (src : Str)
    (s : State) (h : Reachable jsonParse G src s) :
    s.source = trimSource src ∧ s.lastIndex = 0 := by
  induction h with
  | init prev => exact ⟨rfl, rfl⟩
  | comment s s' block text start endPos _ hstep ih =>
    obtain ⟨h1, h2⟩ := frame_annotationProcessor jsonParse s s' block text start endPos hstep
    exact ⟨h1.trans ih.1, h2.trans ih.2⟩
  | visit s s' node _ hstep ih =>
    obtain ⟨h1, h2⟩ := frame_astWalker G s s' node hstep
    exact ⟨h1.trans ih.1, h2.trans ih.2⟩

theorem unannotated_node_changes_nothing (G : Graph) (s : State) (start : Nat) (id o p callee : Expr)
    (h : indexOf s.annotatedLines (acorn.getLineInfo s.source start).line = none) :
    astWalker G s (.FunctionDeclaration start id) = .ok s ∧
    astWalker G s (.Expression (.MemberExpression start o p)) = .ok s ∧
    astWalker G s (.Expression (.CallExpression start callee)) = .ok s := by
  refine ⟨?_, ?_, ?_⟩
  · simp only [astWalker, FunctionDeclaration, h]
  · simp only [astWalker, MemberExpression, Expr.start, h]
  · simp only [astWalker, CallExpression, h]

/-! ## Comments that are no annotations, and quiet nodes -/

theorem onComments_around (jsonParse : Str → Except JsError JVal) (cpre cpost : List Comment)
    (c : Comment) (s s' : State)
    (hplain : ∀ d ∈ cpre ++ cpost, (cleanText d.block d.text).head? ≠ some '@')
    (hc : annotationProcessor jsonParse s c.block c.text c.start c.endPos = .ok s') :
    onComments jsonParse (cpre ++ c :: cpost) s = (s', none) := by
  have hplainOne : ∀ (d : Comment) (t : State), (cleanText d.block d.text).head? ≠ some '@' →
      annotationProcessor jsonParse t d.block d.text d.start d.endPos = .ok t := by
    intro d t hd
    simp only [annotationProcessor, hd, if_false]
  have hpost : ∀ (ds : List Comment) (t : State),
      (∀ d ∈ ds, (cleanText d.block d.text).head? ≠ some '@') →
      onComments jsonParse ds t = (t, none) := by
    intro ds
    induction ds with
    | nil => intro t _; rfl
    | cons d ds ih =>
      intro t h
      simp only [onComments, hplainOne d t (h d (List.mem_cons_self _ _))]
      exact ih t (fun x hx => h x (List.mem_cons_of_mem _ hx))
  induction cpre with
  | nil =>
    simp only [List.nil_append, onComments, hc]
    exact hpost cpost s' (fun d hd => hplain d (by simpa using hd))
  | cons d ds ih =>
    simp only [List.cons_append, onComments,
      hplainOne d s (hplain d (by simp))]
    exact ih (fun x hx => hplain x (by
      simp only [List.cons_append, List.mem_cons]
      exact Or.inr hx))

theorem declarationsLoop_quiet (s : State) (declarations : List VariableDeclarator)
    (h : declarations.all (quietDeclarator s.source s.annotatedLines) = true)
    (ctx : Option Str) (members : List Member) :
    ∃ ctx', declarationsLoop s declarations ctx members = .ok (ctx', members) := by
  induction declarations generalizing ctx with
  | nil => exact ⟨ctx, rfl⟩
  | cons decl rest ih =>
    simp only [List.all_cons, Bool.and_eq_true] at h
    obtain ⟨hd, hrest⟩ := h
    obtain ⟨id, init⟩ := decl
    cases init with
    | none => simp [quietDeclarator] at hd
    | some value =>
      cases value with
      | FunctionExpression start => simp [quietDeclarator] at hd
      | ObjectExpression start properties =>
        have hq : quietProperties s.source s.annotatedLines properties = true := by
          simpa [quietDeclarator, quietValue] using hd
        simp only [declarationsLoop, flatten_members,
          members_of_quiet_properties s properties [] hq, List.append_nil]
        exact ih hrest _
      | Identifier _ _ => simp only [declarationsLoop]; exact ih hrest _
      | MemberExpression _ _ _ => simp only [declarationsLoop]; exact ih hrest _
      | CallExpression _ _ => simp only [declarationsLoop]; exact ih hrest _
      | Other _ => simp only [declarationsLoop]; exact ih hrest _

theorem astWalker_quiet (G : Graph) (s : State) (node : Node)
    (h : quietNode s.source s.annotatedLines node = true) : astWalker G s node = .ok s := by
  cases node with
  | FunctionDeclaration start id =>
    simp only [quietNode, Option.isNone_iff_eq_none] at h
    simp only [astWalker, FunctionDeclaration, h]
  | VariableDeclaration start declarations =>
    simp only [quietNode] at h
    obtain ⟨ctx, hd⟩ := declarationsLoop_quiet s declarations h none []
    simp only [astWalker, VariableDeclaration, hd, resolveMembers]
  | Expression e =>
    cases e with
    | MemberExpression start o p =>
      simp only [quietNode, Option.isNone_iff_eq_none] at h
      simp only [astWalker, MemberExpression, Expr.start, h]
    | CallExpression start callee =>
      simp only [quietNode, Option.isNone_iff_eq_none] at h
      simp only [astWalker, CallExpression, h]
    | Identifier _ _ => rfl
    | FunctionExpression _ => rfl
    | ObjectExpression _ _ => rfl
    | Other _ => rfl

theorem walk_quiet (G : Graph) (s : State) (nodes : List Node)
    (h : ∀ n ∈ nodes, quietNode s.source s.annotatedLines n = true) :
    walk G nodes s = (s, none) := by
  induction nodes with
  | nil => rfl
  | cons n rest ih =>
    simp only [walk, astWalker_quiet G s n (h n (List.mem_cons_self _ _))]
    exact ih (fun x hx => h x (List.mem_cons_of_mem _ hx))

theorem walk_around (G : Graph) (s s' : State) (pre post : List Node) (node : Node)
    (hpre : ∀ n ∈ pre, quietNode s.source s.annotatedLines n = true)
    (hnode : astWalker G s node = .ok s')
    (hpost : ∀ n ∈ post, quietNode s'.source s'.annotatedLines n = true) :
    walk G (pre ++ node :: post) s = (s', none) := by
  induction pre with
  | nil =>
    simp only [List.nil_append, walk, hnode]
    exact walk_quiet G s' post hpost
  | cons n rest ih =>
    simp only [List.cons_append, walk, astWalker_quiet G s n (hpre n (List.mem_cons_self _ _))]
    exact ih (fun x hx => hpre x (List.mem_cons_of_mem _ hx))

theorem resolveMembers_state (G : Graph) (ctx : Option Str) (members : List Member)
    (s s' : State) (h : resolveMembers G ctx members s = .ok s') :
    resolveMembers.state G ctx members s = s' := by
  induction members generalizing s with
  | nil =>
    simp only [resolveMembers] at h
    cases h
    rfl
  | cons m rest ih =>
    simp only [resolveMembers] at h
    simp only [resolveMembers.state]
    cases hc : getFunctionContext G (ctxArg ctx) m.ctxArray with
    | error e => rw [hc] at h; cases h
    | ok ctxObj =>
      simp only [hc] at h ⊢
      by_cases hf : ctxObj.isFunction = some true
      · simp only [hf, if_true] at h ⊢
        cases hi : indexOf s.annotatedLines m.line with
        | none => simp only [hi] at h; cases h
        | some i =>
          simp only [hi] at h ⊢
          cases hset : setFn s i ctxObj with
          | error e => simp only [hset] at h; cases h
          | ok t =>
            simp only [hset] at h ⊢
            exact ih t h
      · simp only [hf, if_false] at h ⊢
        exact ih _ h

/-- On a visit that returns, `astWalker.state` is the state returned. -/
theorem astWalker_state (G : Graph) (s s' : State) (node : Node)
    (h : astWalker G s node = .ok s') : astWalker.state G s node = s' := by
  cases node with
  | FunctionDeclaration start id => simp only [astWalker.state, h]
  | VariableDeclaration start declarations =>
    simp only [astWalker, VariableDeclaration] at h
    simp only [astWalker.state]
    cases hd : declarationsLoop s declarations none [] with
    | error e => simp only [hd] at h; cases h
    | ok r =>
      obtain ⟨ctx, members⟩ := r
      simp only [hd] at h ⊢
      exact resolveMembers_state G ctx members s s' h
  | Expression e => simp only [astWalker.state, h]

/-! ## The claims -/

/-- C1 (`Remarker.annotationProcessor`), for every comment, module state and
`JSON.parse`.  When the text - with line breaks and the whitespace after them
removed if `block`, then trimmed - does not begin with `@`, the call returns and the
module state is unchanged.  When it begins with `@` and the parameter section, if
`reAnnotationParam` finds one, parses, the call appends exactly one record at the end
of `annotationBlocks`, with `line = acorn.getLineInfo(source, end).line + 1` and `fn`
unset, and that same line at the end of `annotatedLines`; nothing else changes. -/
theorem annotationProcessor_appends (jsonParse : Str → Except JsError JVal) (s : State)
    (block : Bool) (text : Str) (start endPos : Nat) :
    ((cleanText block text).head? ≠ some '@' →
      annotationProcessor jsonParse s block text start endPos = .ok s) ∧
    ((cleanText block text).head? = some '@' →
      (∀ m, matchParam (cleanText block text) = some m → ∃ v, jsonParse m.group1 = .ok v) →
      ∃ (label : Str) (params : JVal),
        annotationProcessor jsonParse s block text start endPos =
          .ok { s with
            annotatedLines := s.annotatedLines ++ [(acorn.getLineInfo s.source endPos).line + 1]
            annotationBlocks := s.annotationBlocks ++
              [{ line := (acorn.getLineInfo s.source endPos).line + 1,
                 annotation := label, params := params, fn := none }] }) :=
  ⟨fun h => by simp [annotationProcessor, h],
   fun h hp => annotationProcessor_at jsonParse s block text start endPos h hp⟩

/-- Witness of C1: the comment ` @Log({"a":1})` of `sourceParams`, ending at
offset 16. -/
theorem annotationProcessor_appends_witness :
    (cleanText false " @Log(\x7b\"a\":1\x7d)".toList).head? = some '@' ∧
    ∃ (label : Str) (params : JVal),
      annotationProcessor jsonParseSample ⟨sourceParams, [], [], 0⟩ false
          " @Log(\x7b\"a\":1\x7d)".toList 0 16 =
        .ok ⟨sourceParams, [] ++ [(acorn.getLineInfo sourceParams 16).line + 1],
             [] ++ [{ line := (acorn.getLineInfo sourceParams 16).line + 1,
                      annotation := label, params := params, fn := none }], 0⟩ :=
  ⟨by decide, (annotationProcessor_appends jsonParseSample ⟨sourceParams, [], [], 0⟩ false
      " @Log(\x7b\"a\":1\x7d)".toList 0 16).2 (by decide) (by
        intro m hm
        have e : matchParam (cleanText false " @Log(\x7b\"a\":1\x7d)".toList)
            = some ⟨"@Log".toList, "\x7b\"a\":1\x7d".toList, []⟩ := by decide
        rw [e] at hm
        cases hm
        exact ⟨_, rfl⟩)⟩

/-- C2, as amended.  For every name without `(` and without whitespace (every
identifier is one) and every one-line parameter text `{body}` in which the two
characters `})` do not occur and which `JSON.parse` reads as the object `entries`:
on the text `@name({body})` the call appends a record with `annotation = name` and
`params = entries`, and on `@name` alone a record with `annotation = name` and
`params = {}`; the line of either record is the line after the comment's end. -/
theorem annotationProcessor_params (jsonParse : Str → Except JsError JVal) (s : State)
    (block : Bool) (name body : Str) (entries : List (Str × JVal)) (start endPos : Nat)
    (hname : ∀ c ∈ name, c ≠ '(' ∧ isWhitespace c = false)
    (hbody : ∀ c ∈ body, isLineTerminator c = false)
    (hclose : hasCloser (body ++ ['}']) = false)
    (hparse : jsonParse ('{' :: (body ++ ['}'])) = .ok (.obj entries)) :
    annotationProcessor jsonParse s block
        ('@' :: name ++ '(' :: '{' :: (body ++ ['}', ')'])) start endPos =
      .ok { s with
        annotatedLines := s.annotatedLines ++ [(acorn.getLineInfo s.source endPos).line + 1]
        annotationBlocks := s.annotationBlocks ++
          [{ line := (acorn.getLineInfo s.source endPos).line + 1,
             annotation := name, params := .obj entries, fn := none }] } ∧
    annotationProcessor jsonParse s block ('@' :: name) start endPos =
      .ok { s with
        annotatedLines := s.annotatedLines ++ [(acorn.getLineInfo s.source endPos).line + 1]
        annotationBlocks := s.annotationBlocks ++
          [{ line := (acorn.getLineInfo s.source endPos).line + 1,
             annotation := name, params := .obj [], fn := none }] } := by
  have hpre : ∀ c ∈ '@' :: name, c ≠ '(' := by
    intro c hc
    rcases List.mem_cons.1 hc with h | h
    · subst h; decide
    · exact (hname c h).1
  constructor
  · have hm := matchParam_section ('@' :: name) body hpre hbody hclose
    have hr : removeParam (name ++ '(' :: '{' :: (body ++ ['}', ')'])) = name := by
      unfold removeParam
      rw [matchParam_section name body (fun c hc => (hname c hc).1) hbody hclose]
      simp
    unfold annotationProcessor
    simp only [cleanText_section block name body hname hbody]
    simp only [List.cons_append] at hm
    simp [hm, hparse, hr, JVal.truthy]
  · unfold annotationProcessor
    simp only [cleanText_name block name hname]
    simp [matchParam_none _ hpre]

/-- Witness of C2 as amended: `@Name({"a":1})` and `@Name`. -/
theorem annotationProcessor_params_witness :
    annotationProcessor jsonParseSample emptyState false
        ('@' :: "Name".toList ++ '(' :: '{' :: ("\"a\":1".toList ++ ['}', ')'])) 0 14 =
      .ok { emptyState with
        annotatedLines := emptyState.annotatedLines ++ [(acorn.getLineInfo emptyState.source 14).line + 1]
        annotationBlocks := emptyState.annotationBlocks ++
          [{ line := (acorn.getLineInfo emptyState.source 14).line + 1,
             annotation := "Name".toList, params := .obj [("a".toList, .num 1 0)], fn := none }] } ∧
    annotationProcessor jsonParseSample emptyState false ('@' :: "Name".toList) 0 14 =
      .ok { emptyState with
        annotatedLines := emptyState.annotatedLines ++ [(acorn.getLineInfo emptyState.source 14).line + 1]
        annotationBlocks := emptyState.annotationBlocks ++
          [{ line := (acorn.getLineInfo emptyState.source 14).line + 1,
             annotation := "Name".toList, params := .obj [], fn := none }] } :=
  annotationProcessor_params jsonParseSample emptyState false "Name".toList "\"a\":1".toList
    [("a".toList, .num 1 0)] 0 14 (by decide) (by decide) (by decide) rfl

/-- C2 as stated fails at `Name` and the one-line object text `{"a":"})"}`:
`JSON.parse` reads it as an object, but on `@Name({"a":"})"})` the lazy `.*?` of
`reAnnotationParam` stops at the first `})`, `JSON.parse` is given `{"a":"}` and the
call raises a SyntaxError instead of appending a record. -/
theorem annotationProcessor_params_counterexample :
    jsonParseSample "\x7b\"a\":\"\x7d)\"\x7d".toList = .ok (.obj [("a".toList, .str "\x7d)".toList)]) ∧
    ("\x7b\"a\":\"\x7d)\"\x7d".toList.all (fun c => !isLineTerminator c)) = true ∧
    annotationProcessor jsonParseSample emptyState false "@Name(\x7b\"a\":\"\x7d)\"\x7d)".toList 0 17 =
      .error .SyntaxError :=
  ⟨rfl, by decide, rfl⟩

/-- C3, the code at the failing input `sourceVarFunction`.  The source has one
annotation comment, and the `FunctionDeclaration` visit resolves its record to `foo`;
the `VariableDeclaration` visit of the unannotated `var g = function(){}` then finds
no record for line 3 and removes the last one by `splice(-1, 1)`: no record is left,
and no handler is called. -/
theorem process_unannotated_var_function :
    ((onComments jsonParseSample parsedVarFunction.comments
        ⟨trimSource sourceVarFunction, [], [], 0⟩).1.annotationBlocks.map
      (fun b => (b.line, Block.annotation b, b.fn))) = [(2, "Log".toList, none)] ∧
    ((walk globalFooG [.FunctionDeclaration 8 (.Identifier 17 "foo".toList)]
        (onComments jsonParseSample parsedVarFunction.comments
          ⟨trimSource sourceVarFunction, [], [], 0⟩).1).1.annotationBlocks.map
      (fun b => (b.line, Block.annotation b, b.fn))) =
      [(2, "Log".toList, some ⟨window, some "foo".toList, none⟩)] ∧
    (@process Nat jsonParseSample globalFooG (parsedAs parsedVarFunction) emptyState
      sourceVarFunction none).state.annotationBlocks.length = 0 ∧
    (@process Nat jsonParseSample globalFooG (parsedAs parsedVarFunction) emptyState
      sourceVarFunction none).calls.length = 0 ∧
    (@process Nat jsonParseSample globalFooG (parsedAs parsedVarFunction) emptyState
      sourceVarFunction none).error = none := by
  decide

/-- C4, the code at the failing input: the caller's registry has an entry of its
own under `Info` (`user 7`), the record of `sourceInfo` is named `Info`, and the
handler called is the `Info` of `DefaultHandlers`, since
`merge(DefaultHandlers, handlers)` writes the defaults over the caller's entries. -/
theorem process_default_replaces_caller_Info :
    lookup handlersInfo "Info".toList = some (.user 7) ∧
    ((process jsonParseSample globalFooG (parsedAs parsedInfo) emptyState sourceInfo
        (some handlersInfo)).calls.map (fun c => (c.1, Block.annotation c.2, c.2.fn))) =
      [(.Info, "Info".toList, some ⟨window, some "foo".toList, none⟩)] := by
  decide

/-- C5, as amended.  Let the comments of the source be one annotation comment,
whose end is on line `L`, and any number of comments that are no annotations; let
the nodes visited be one function declaration and, before and after it, any number
of nodes that are quiet for line `L + 1`: nodes of a kind without visitor, function
declarations, member expressions and call expressions that start on another line,
and variable declarations whose declarators all have an initialiser that is no
function expression and holds no function-valued property starting on line `L + 1`.
Then the record targets line `L + 1`, whatever follows the comment, and after
`Remarker.process` it is the only record and is bound to the declaration exactly
when the declaration starts on line `L + 1`; when it starts on another line, as
after a blank line, the record's `fn` stays unset. -/
theorem comment_targets_next_line {α : Type} (jsonParse : Str → Except JsError JVal)
    (G : Graph) (parser : Acorn) (prev : State) (src : Str) (handlers : Option (Registry α))
    (cpre cpost : List Comment) (c : Comment) (pre post : List Node) (fstart : Nat) (id : Expr)
    (hparse : parser.parse (trimSource src) =
      ⟨cpre ++ c :: cpost, .ok (pre ++ .FunctionDeclaration fstart id :: post)⟩)
    (hplain : ∀ d ∈ cpre ++ cpost, (cleanText d.block d.text).head? ≠ some '@')
    (hAt : (cleanText c.block c.text).head? = some '@')
    (hp : ∀ m, matchParam (cleanText c.block c.text) = some m →
      ∃ v, jsonParse m.group1 = .ok v)
    (hquiet : ∀ n ∈ pre ++ post, quietNode (trimSource src)
      [(acorn.getLineInfo (trimSource src) c.endPos).line + 1] n = true) :
    ∃ r : Block, r.line = (acorn.getLineInfo (trimSource src) c.endPos).line + 1 ∧
      r.fn = none ∧
      annotationProcessor jsonParse ⟨trimSource src, [], [], 0⟩ c.block c.text c.start c.endPos =
        .ok ⟨trimSource src, [r.line], [r], 0⟩ ∧
      (process jsonParse G parser prev src handlers).state =
        ⟨trimSource src, [r.line],
          [{ r with fn := if (acorn.getLineInfo (trimSource src) fstart).line = r.line
                          then some ⟨window, id.name, none⟩ else none }], 0⟩ := by
  obtain ⟨r, hr1, hr2, hr3, hr4⟩ := FunctionDeclaration_after_comment jsonParse (trimSource src)
    c.block c.text c.start c.endPos fstart id hAt hp
  refine ⟨r, hr1, hr2, hr3, ?_⟩
  have hq : ∀ n ∈ pre ++ post, quietNode (trimSource src) [r.line] n = true := by
    rw [hr1]
    exact hquiet
  rw [process_of_phases jsonParse G parser prev src handlers
    (pre ++ .FunctionDeclaration fstart id :: post)
    ⟨trimSource src, [r.line], [r], 0⟩
    ⟨trimSource src, [r.line],
      [{ r with fn := if (acorn.getLineInfo (trimSource src) fstart).line = r.line
                      then some ⟨window, id.name, none⟩ else none }], 0⟩
    (by rw [hparse])
    (by rw [hparse]; exact onComments_around jsonParse cpre cpost c _ _ hplain hr3)
    (walk_around G _ _ pre post _ (fun n hn => hq n (List.mem_append_left _ hn))
      (by simp only [astWalker, hr4]) (fun n hn => hq n (List.mem_append_right _ hn)))]

/-- Witness of C5 as amended.  In `sourceBlankLine` the declaration starts two
lines after the comment and the record stays unbound; in `sourceAmongOthers` it
starts on the line after the annotation comment and the record is bound to `foo`, a
plain comment coming before and a variable declaration and a call after. -/
theorem comment_targets_next_line_witness :
    (∃ r : Block, r.line = (acorn.getLineInfo (trimSource sourceBlankLine) 7).line + 1 ∧
      r.fn = none ∧
      annotationProcessor jsonParseSample ⟨trimSource sourceBlankLine, [], [], 0⟩
          false " @Log".toList 0 7 =
        .ok ⟨trimSource sourceBlankLine, [r.line], [r], 0⟩ ∧
      (@process Nat jsonParseSample globalFooG (parsedAs parsedBlankLine) emptyState
          sourceBlankLine none).state =
        ⟨trimSource sourceBlankLine, [r.line],
          [{ r with fn := if (acorn.getLineInfo (trimSource sourceBlankLine) 9).line = r.line
                          then some ⟨window, (Expr.Identifier 18 "foo".toList).name, none⟩
                          else none }], 0⟩) ∧
    (∃ r : Block, r.line = (acorn.getLineInfo (trimSource sourceAmongOthers) 18).line + 1 ∧
      r.fn = none ∧
      annotationProcessor jsonParseSample ⟨trimSource sourceAmongOthers, [], [], 0⟩
          false " @Log".toList 11 18 =
        .ok ⟨trimSource sourceAmongOthers, [r.line], [r], 0⟩ ∧
      (@process Nat jsonParseSample globalFooG (parsedAs parsedAmongOthers) emptyState
          sourceAmongOthers none).state =
        ⟨trimSource sourceAmongOthers, [r.line],
          [{ r with fn := if (acorn.getLineInfo (trimSource sourceAmongOthers) 19).line = r.line
                          then some ⟨window, (Expr.Identifier 28 "foo".toList).name, none⟩
                          else none }], 0⟩) :=
  ⟨comment_targets_next_line jsonParseSample globalFooG (parsedAs parsedBlankLine) emptyState
    sourceBlankLine none [] [] ⟨false, " @Log".toList, 0, 7⟩ [] [] 9 (.Identifier 18 "foo".toList)
    rfl (by intro d hd; cases hd) (by decide)
    (by
      intro m hm
      have e : matchParam (cleanText false " @Log".toList) = none := by decide
      rw [e] at hm
      cases hm)
    (by intro n hn; cases hn),
   comment_targets_next_line jsonParseSample globalFooG (parsedAs parsedAmongOthers) emptyState
    sourceAmongOthers none [⟨true, " note ".toList, 0, 10⟩] [] ⟨false, " @Log".toList, 11, 18⟩
    [] [.VariableDeclaration 36 [⟨.Identifier 40 "n".toList, some (.Other 44)⟩],
      .Expression (.CallExpression 47 (.Identifier 47 "foo".toList))]
    19 (.Identifier 28 "foo".toList) rfl
    (by
      intro d hd
      simp only [List.append_nil, List.mem_singleton] at hd
      subst hd
      decide)
    (by decide)
    (by
      intro m hm
      have e : matchParam (cleanText false " @Log".toList) = none := by decide
      rw [e] at hm
      cases hm)
    (by
      intro n hn
      simp only [List.nil_append, List.mem_cons, List.not_mem_nil, or_false] at hn
      rcases hn with h | h <;> subst h <;> decide)⟩

/-- C5 as stated fails on its own example: in `sourceBlankLine` the comment ends on
line 1 and `function foo(){}` starts on line 3, and after `Remarker.process` the one
record targets line 2 and has no `fn`: it is not bound to `foo`. -/
theorem blank_line_counterexample :
    (acorn.getLineInfo sourceBlankLine 7).line = 1 ∧
    (acorn.getLineInfo sourceBlankLine 9).line = 3 ∧
    ((@process Nat jsonParseSample globalFooG (parsedAs parsedBlankLine) emptyState
      sourceBlankLine none).state.annotationBlocks.map (fun b => (b.line, b.fn))) = [(2, none)] := by
  decide

/-- C6.  Let the member chain `x0.x1.....xn` (`n >= 1`, `x0` a non-empty name;
`ys` holds `x1..x(n-1)` and `y` is `xn`) start on an annotated line whose record is
at `index`; let `x0.....xn` denote a function in the global object graph, `ctx` be
what `x0.....x(n-1)` denotes, and no sub-chain `x0.....xk` with `1 <= k < n` denote a
function.  Then for every order in which `MemberExpression` visits the full chain and
any of its sub-chains (`visits` lists their lengths; the full chain is among them),
the walk returns, `annotatedLines` is unchanged, and the record at `index` has
`fn.context = ctx` and `fn.name = xn`. -/
theorem member_chain_resolves (G : Graph) (s : State) (start : Nat) (x0 : Str)
    (ys : List (Nat × Str)) (y : Nat × Str) (visits : List Nat) (index : Nat) (ctx : Val) (f : Nat)
    (hx0 : x0 ≠ [])
    (hline : indexOf s.annotatedLines (acorn.getLineInfo s.source start).line = some index)
    (hidx : index < s.annotationBlocks.length)
    (hctx : evalPath G window (x0 :: ys.map (fun x => x.2)) = some ctx)
    (hfun : evalPath G window (x0 :: ys.map (fun x => x.2) ++ [y.2]) = some (.ref f))
    (hf : G.isFunction f = true)
    (hinner : ∀ k g, 1 ≤ k → k ≤ ys.length →
      evalPath G window (x0 :: (ys.map (fun x => x.2)).take k) = some (.ref g) →
      G.isFunction g = false)
    (hvisits : ∀ k ∈ visits, 1 ≤ k ∧ k ≤ ys.length + 1)
    (hfull : ys.length + 1 ∈ visits) :
    ∃ s', walk G (visits.map (fun k => .Expression (chain start x0 ((ys ++ [y]).take k)))) s
        = (s', none) ∧
      s'.annotatedLines = s.annotatedLines ∧
      s'.annotationBlocks.length = s.annotationBlocks.length ∧
      (s'.annotationBlocks[index]?).map (fun b => b.fn) =
        some (some ⟨ctx, some y.2, some true⟩) := by
  have key : ∀ (vs : List Nat), (∀ k ∈ vs, 1 ≤ k ∧ k ≤ ys.length + 1) → ∀ t : State,
      t.source = s.source → t.annotatedLines = s.annotatedLines →
      t.annotationBlocks.length = s.annotationBlocks.length →
      ∃ s', walk G (vs.map (fun k => .Expression (chain start x0 ((ys ++ [y]).take k)))) t
          = (s', none) ∧
        s'.annotatedLines = s.annotatedLines ∧
        s'.annotationBlocks.length = s.annotationBlocks.length ∧
        ((ys.length + 1 ∈ vs ∨ (t.annotationBlocks[index]?).map (fun b => b.fn) =
            some (some ⟨ctx, some y.2, some true⟩)) →
          (s'.annotationBlocks[index]?).map (fun b => b.fn) =
            some (some ⟨ctx, some y.2, some true⟩)) := by
    intro vs
    induction vs with
    | nil =>
      intro _ t _ h2 h3
      exact ⟨t, rfl, h2, h3, fun h => by simpa using h⟩
    | cons k ks ih =>
      intro hv t h1 h2 h3
      have hk := hv k (List.mem_cons_self _ _)
      have hline' : indexOf t.annotatedLines (acorn.getLineInfo t.source start).line = some index := by
        rw [h1, h2]; exact hline
      by_cases hkn : k = ys.length + 1
      · -- the visit of the full chain
        obtain ⟨id, hid, hme⟩ := MemberExpression_chain G t start x0 hx0 ys y index (.ref f) hline' hfun
        have hcid : ctx = .ref id := by rw [hctx] at hid; exact Option.some.inj hid
        obtain ⟨t', ht', e1, e2, e3, e4⟩ := setFn_ok t index ⟨.ref id, some y.2, some true⟩ (by omega)
        obtain ⟨s', hw, r1, r2, r3⟩ := ih (fun j hj => hv j (List.mem_cons_of_mem _ hj)) t'
          (e1.trans h1) (e2.trans h2) (e3.trans h3)
        refine ⟨s', ?_, r1, r2, fun _ => r3 (Or.inr (by rw [hcid]; exact e4))⟩
        have hstep : astWalker G t (.Expression (chain start x0 ((ys ++ [y]).take k))) = .ok t' := by
          rw [hkn, List.take_of_length_le (by simp), astWalker_chain, hme]
          simp [typeofFunction, hf, ht']
        simp only [List.map_cons, walk, hstep]
        exact hw
      · -- the visit of a proper sub-chain
        have hstep := member_chain_inner_visit G t start x0 hx0 ys y index ctx hline' hctx hinner k
          hk.1 (by omega)
        obtain ⟨s', hw, r1, r2, r3⟩ := ih (fun j hj => hv j (List.mem_cons_of_mem _ hj)) t h1 h2 h3
        refine ⟨s', ?_, r1, r2, fun h => r3 ?_⟩
        · simp only [List.map_cons, walk, hstep]
          exact hw
        · rcases h with h | h
          · rcases List.mem_cons.1 h with h | h
            · exact absurd h.symm hkn
            · exact Or.inl h
          · exact Or.inr h
  obtain ⟨s', hw, r1, r2, r3⟩ := key visits hvisits s rfl rfl rfl
  exact ⟨s', hw, r1, r2, r3 (Or.inl hfull)⟩

/-- Witness of C6: `A.b.c` of `sourceChain`, the sub-chain `A.b` visited first. -/
theorem member_chain_resolves_witness :
    ∃ s', walk globalABC ([1, 2].map (fun k => .Expression
        (chain 30 "A".toList (([(32, "b".toList)] ++ [(34, "c".toList)]).take k)))) stateChain
        = (s', none) ∧
      s'.annotatedLines = stateChain.annotatedLines ∧
      s'.annotationBlocks.length = stateChain.annotationBlocks.length ∧
      (s'.annotationBlocks[0]?).map (fun b => b.fn) =
        some (some ⟨.ref 2, some (34, "c".toList).2, some true⟩) :=
  member_chain_resolves globalABC stateChain 30 "A".toList [(32, "b".toList)] (34, "c".toList)
    [1, 2] 0 (.ref 2) 3 (by decide) (by decide) (by decide) (by decide) (by decide) (by decide)
    (by
      intro k g h1 h2 h
      have hk : k = 1 := by simp at h2; omega
      subst hk
      have e : evalPath globalABC window ("A".toList :: (List.map (fun x => x.2)
          [(32, "b".toList)]).take 1) = some (.ref 2) := by decide
      rw [e] at h
      cases h
      decide)
    (by decide) (by decide)

/-- C7, as amended.  Let the comments of the source be one annotation comment,
which ends on the line before the one on which a function expression starts, and any
number of comments that are no annotations; let the nodes visited be the declaration
of `var root` with an object literal in which the keys of `outer` and then `inner`
(all non-empty) lead to that function expression, and, before and after it, any
number of nodes that are quiet for that line: nodes of a kind without visitor,
function declarations, member expressions and call expressions that start on another
line, and variable declarations whose declarators all have an initialiser that is no
function expression and holds no function-valued property starting on that line.
Let no other function expression among the property values of the literal start on
that line, and `root` followed by those keys denote a function in the global object
graph, `ctx` being what `root` followed by the keys of `outer` denotes.  Then after
`Remarker.process` the record has `fn = {context: ctx, name: inner.key}`: path
segments `root`, keys of `outer`, and leaf `inner.key`. -/
theorem nested_property_resolves {α : Type} (jsonParse : Str → Except JsError JVal)
    (G : Graph) (parser : Acorn) (prev : State) (src : Str) (handlers : Option (Registry α))
    (cpre cpost : List Comment) (c : Comment) (pre post : List Node) (vstart rstart : Nat)
    (root : Str) (outer : List Level) (inner : Level) (fstart : Nat) (ctx : Val) (f : Nat)
    (hparse : parser.parse (trimSource src) =
      ⟨cpre ++ c :: cpost, .ok (pre ++ .VariableDeclaration vstart
        [⟨.Identifier rstart root, some (nestedLiteral (outer ++ [inner]) fstart)⟩] :: post)⟩)
    (hplain : ∀ d ∈ cpre ++ cpost, (cleanText d.block d.text).head? ≠ some '@')
    (hAt : (cleanText c.block c.text).head? = some '@')
    (hp : ∀ m, matchParam (cleanText c.block c.text) = some m →
      ∃ v, jsonParse m.group1 = .ok v)
    (hothers : ∀ n ∈ pre ++ post, quietNode (trimSource src)
      [(acorn.getLineInfo (trimSource src) c.endPos).line + 1] n = true)
    (hnext : (acorn.getLineInfo (trimSource src) fstart).line =
      (acorn.getLineInfo (trimSource src) c.endPos).line + 1)
    (hkeys : ∀ l ∈ outer ++ [inner], l.key ≠ [])
    (hquiet : ∀ l ∈ outer ++ [inner],
      quietProperties (trimSource src)
        [(acorn.getLineInfo (trimSource src) c.endPos).line + 1] l.before = true ∧
      quietProperties (trimSource src)
        [(acorn.getLineInfo (trimSource src) c.endPos).line + 1] l.after = true)
    (hctx : evalPath G window (root :: outer.map (fun l => l.key)) = some ctx)
    (hfun : evalPath G window (root :: outer.map (fun l => l.key) ++ [inner.key]) = some (.ref f))
    (hf : G.isFunction f = true) :
    ∃ r : Block, r.line = (acorn.getLineInfo (trimSource src) c.endPos).line + 1 ∧
      annotationProcessor jsonParse ⟨trimSource src, [], [], 0⟩ c.block c.text c.start c.endPos =
        .ok ⟨trimSource src, [r.line], [r], 0⟩ ∧
      (process jsonParse G parser prev src handlers).state =
        ⟨trimSource src, [r.line],
          [{ r with fn := some ⟨ctx, some inner.key, some true⟩ }], 0⟩ := by
  obtain ⟨r, hr1, hr2, hr3⟩ := VariableDeclaration_after_comment jsonParse G (trimSource src)
    c.block c.text c.start c.endPos rstart root outer inner fstart ctx f hAt hp hnext hkeys hquiet
    hctx hfun hf
  refine ⟨r, hr1, hr2, ?_⟩
  have hq : ∀ n ∈ pre ++ post, quietNode (trimSource src) [r.line] n = true := by
    rw [hr1]
    exact hothers
  rw [process_of_phases jsonParse G parser prev src handlers
    (pre ++ .VariableDeclaration vstart
      [⟨.Identifier rstart root, some (nestedLiteral (outer ++ [inner]) fstart)⟩] :: post)
    ⟨trimSource src, [r.line], [r], 0⟩
    ⟨trimSource src, [r.line], [{ r with fn := some ⟨ctx, some inner.key, some true⟩ }], 0⟩
    (by rw [hparse])
    (by rw [hparse]; exact onComments_around jsonParse cpre cpost c _ _ hplain hr2)
    (walk_around G _ _ pre post _ (fun n hn => hq n (List.mem_append_left _ hn))
      (by simp only [astWalker, hr3]) (fun n hn => hq n (List.mem_append_right _ hn)))]

/-- Witness of C7 as amended.  In `sourceNestedLines` the comment is alone on line
2 and `y: function(){}` is on line 3; `sourceNestedCall` has the call `obj.x.y()` on
a fourth line, visited after the declaration. -/
theorem nested_property_resolves_witness :
    (∃ r : Block, r.line = (acorn.getLineInfo (trimSource sourceNestedLines) 27).line + 1 ∧
      annotationProcessor jsonParseSample ⟨trimSource sourceNestedLines, [], [], 0⟩
          true " @Log ".toList 17 27 =
        .ok ⟨trimSource sourceNestedLines, [r.line], [r], 0⟩ ∧
      (@process Nat jsonParseSample globalObjXY (parsedAs parsedNestedLines) emptyState
          sourceNestedLines none).state =
        ⟨trimSource sourceNestedLines, [r.line],
          [{ r with fn := some ⟨.ref 2, some (⟨15, [], 28, "y".toList, []⟩ : Level).key,
                                some true⟩ }], 0⟩) ∧
    (∃ r : Block, r.line = (acorn.getLineInfo (trimSource sourceNestedCall) 27).line + 1 ∧
      annotationProcessor jsonParseSample ⟨trimSource sourceNestedCall, [], [], 0⟩
          true " @Log ".toList 17 27 =
        .ok ⟨trimSource sourceNestedCall, [r.line], [r], 0⟩ ∧
      (@process Nat jsonParseSample globalObjXY (parsedAs parsedNestedCall) emptyState
          sourceNestedCall none).state =
        ⟨trimSource sourceNestedCall, [r.line],
          [{ r with fn := some ⟨.ref 2, some (⟨15, [], 28, "y".toList, []⟩ : Level).key,
                                some true⟩ }], 0⟩) :=
  ⟨nested_property_resolves jsonParseSample globalObjXY (parsedAs parsedNestedLines) emptyState
    sourceNestedLines none [] [] ⟨true, " @Log ".toList, 17, 27⟩ [] [] 0 4
    "obj".toList [⟨10, [], 12, "x".toList, []⟩] ⟨15, [], 28, "y".toList, []⟩ 31 (.ref 2) 3
    rfl (by intro d hd; cases hd) (by decide)
    (by
      intro m hm
      have e : matchParam (cleanText true " @Log ".toList) = none := by decide
      rw [e] at hm
      cases hm)
    (by intro n hn; cases hn)
    (by decide)
    (by
      intro l hl
      simp only [List.cons_append, List.nil_append, List.mem_cons, List.mem_singleton,
        List.not_mem_nil, or_false] at hl
      rcases hl with h | h <;> subst h <;> decide)
    (by
      intro l hl
      simp only [List.cons_append, List.nil_append, List.mem_cons, List.mem_singleton,
        List.not_mem_nil, or_false] at hl
      rcases hl with h | h <;> subst h <;> exact ⟨rfl, rfl⟩)
    (by decide) (by decide) (by decide),
   nested_property_resolves jsonParseSample globalObjXY (parsedAs parsedNestedCall) emptyState
    sourceNestedCall none [] [] ⟨true, " @Log ".toList, 17, 27⟩ []
    [.Expression (.MemberExpression 49 (.Identifier 49 "obj".toList) (.Identifier 53 "x".toList)),
     .Expression (.MemberExpression 49
       (.MemberExpression 49 (.Identifier 49 "obj".toList) (.Identifier 53 "x".toList))
       (.Identifier 55 "y".toList)),
     .Expression (.CallExpression 49 (.MemberExpression 49
       (.MemberExpression 49 (.Identifier 49 "obj".toList) (.Identifier 53 "x".toList))
       (.Identifier 55 "y".toList)))]
    0 4 "obj".toList [⟨10, [], 12, "x".toList, []⟩] ⟨15, [], 28, "y".toList, []⟩ 31 (.ref 2) 3
    rfl (by intro d hd; cases hd) (by decide)
    (by
      intro m hm
      have e : matchParam (cleanText true " @Log ".toList) = none := by decide
      rw [e] at hm
      cases hm)
    (by
      intro n hn
      simp only [List.nil_append, List.mem_cons, List.not_mem_nil, or_false] at hn
      rcases hn with h | h | h <;> subst h <;> decide)
    (by decide)
    (by
      intro l hl
      simp only [List.cons_append, List.nil_append, List.mem_cons, List.mem_singleton,
        List.not_mem_nil, or_false] at hl
      rcases hl with h | h <;> subst h <;> decide)
    (by
      intro l hl
      simp only [List.cons_append, List.nil_append, List.mem_cons, List.mem_singleton,
        List.not_mem_nil, or_false] at hl
      rcases hl with h | h <;> subst h <;> exact ⟨rfl, rfl⟩)
    (by decide) (by decide) (by decide)⟩

/-- C7 as stated fails on its own example: in the one-line `sourceNestedInline`,
`obj.x.y` is a function and the function expression starts on line 1, while the
record of the comment targets line 2; after `Remarker.process` the record has no
`fn`. -/
theorem nested_inline_comment_counterexample :
    evalPath globalObjXY window ["obj".toList, "x".toList, "y".toList] = some (.ref 3) ∧
    globalObjXY.isFunction 3 = true ∧
    (acorn.getLineInfo sourceNestedInline 31).line = 1 ∧
    ((@process Nat jsonParseSample globalObjXY (parsedAs parsedNestedInline) emptyState
        sourceNestedInline none).state.annotationBlocks.map (fun b => (b.line, b.fn))) =
      [(2, none)] := by
  decide

/-- C8, as amended.  In a module state where `annotatedLines` holds the lines of
the records, a `FunctionDeclaration` node whose start line is the target line of a
record sets `fn = {context: window, name}` (no lookup in the object graph) on the
first record with that target line, and leaves every other record, `annotatedLines`
and the rest of the state unchanged. -/
theorem FunctionDeclaration_sets_first (s : State) (start : Nat) (id : Expr) (i : Nat) (b : Block)
    (hinv : s.annotatedLines = s.annotationBlocks.map (fun r => r.line))
    (hi : s.annotationBlocks[i]? = some b)
    (hline : b.line = (acorn.getLineInfo s.source start).line)
    (hfirst : ∀ j r, j < i → s.annotationBlocks[j]? = some r →
      r.line ≠ (acorn.getLineInfo s.source start).line) :
    FunctionDeclaration s start id =
      .ok { s with annotationBlocks :=
        s.annotationBlocks.set i { b with fn := some ⟨window, id.name, none⟩ } } := by
  have hidx : indexOf s.annotatedLines (acorn.getLineInfo s.source start).line = some i := by
    apply indexOf_first
    · rw [hinv, List.getElem?_map, hi, ← hline]; rfl
    · intro j hj hc
      rw [hinv, List.getElem?_map] at hc
      cases hr : s.annotationBlocks[j]? with
      | none => rw [hr] at hc; simp at hc
      | some r =>
        rw [hr] at hc
        exact hfirst j r hj hr (by simpa using hc)
  simp only [FunctionDeclaration, hidx, setFn, hi]

/-- Witness of C8 as amended: the one record of `stateInfo`, line 2, and the
declaration `function foo(){}` of `sourceInfo`, which starts at offset 9. -/
theorem FunctionDeclaration_sets_first_witness :
    FunctionDeclaration stateInfo 9 (.Identifier 18 "foo".toList) =
      .ok { stateInfo with annotationBlocks :=
        (stateInfo.annotationBlocks.set 0
          { (⟨2, "Info".toList, .obj [], none⟩ : Block) with
            fn := some ⟨window, (Expr.Identifier 18 "foo".toList).name, none⟩ }) } :=
  FunctionDeclaration_sets_first stateInfo 9 (.Identifier 18 "foo".toList) 0
    ⟨2, "Info".toList, .obj [], none⟩ rfl rfl (by decide) (by intro j r hj; omega)

/-- C8 as stated fails when two records share a target line: in
`sourceTwoComments` the comments `@A` and `@B` both end on line 1, `function f`
starts on line 2, the target line of both records, and only the record of `@A` gets
its `fn`; that of `@B` stays unset. -/
theorem FunctionDeclaration_second_record_counterexample :
    (acorn.getLineInfo sourceTwoComments 18).line = 2 ∧
    ((onComments jsonParseSample parsedTwoComments.comments
        ⟨sourceTwoComments, [], [], 0⟩).1.annotationBlocks.map
      (fun b => (b.line, Block.annotation b, b.fn))) = [(2, "A".toList, none), (2, "B".toList, none)] ∧
    ((@process Nat jsonParseSample globalF (parsedAs parsedTwoComments) emptyState
        sourceTwoComments none).state.annotationBlocks.map
      (fun b => (b.line, Block.annotation b, b.fn))) =
      [(2, "A".toList, some ⟨window, some "f".toList, none⟩), (2, "B".toList, none)] := by
  decide

/-- C9.  On an annotated line whose record is at `index`, let a member expression
resolve to the function context `ctxObj` and a call expression start on the same
line.  Whether `MemberExpression` or `CallExpression` visits first, both visits
return and the record's `fn` is `ctxObj` in the end.  And every `CallExpression`
visit leaves `annotatedLines` and each record whose `fn` is set as they were. -/
theorem member_resolution_wins (G : Graph) (s : State) (member : Expr) (cstart : Nat)
    (callee : Expr) (index : Nat) (ctxArray : List Key) (ctxObj : Fn)
    (hline : indexOf s.annotatedLines (acorn.getLineInfo s.source member.start).line = some index)
    (hcall : (acorn.getLineInfo s.source cstart).line = (acorn.getLineInfo s.source member.start).line)
    (hidx : index < s.annotationBlocks.length)
    (hctx : MemberExpression.getContextRecursive member [] = .ok ctxArray)
    (hres : getFunctionContext G (.value window) (.array ctxArray) = .ok ctxObj)
    (hfun : ctxObj.isFunction = some true) :
    (∃ s1 s2, MemberExpression G s member = .ok s1 ∧ CallExpression s1 cstart callee = .ok s2 ∧
      (s2.annotationBlocks[index]?).map (fun b => b.fn) = some (some ctxObj)) ∧
    (∃ s1 s2, CallExpression s cstart callee = .ok s1 ∧ MemberExpression G s1 member = .ok s2 ∧
      (s2.annotationBlocks[index]?).map (fun b => b.fn) = some (some ctxObj)) ∧
    (∀ (t t' : State) (st : Nat) (c : Expr), CallExpression t st c = .ok t' →
      t'.annotatedLines = t.annotatedLines ∧
      t'.annotationBlocks.length = t.annotationBlocks.length ∧
      ∀ (j : Nat) (b : Block), t.annotationBlocks[j]? = some b → b.fn ≠ none →
        t'.annotationBlocks[j]? = some b) := by
  refine ⟨?_, ?_, ?_⟩
  · obtain ⟨s1, h1, e1, e2, e3, e4⟩ := setFn_ok s index ctxObj hidx
    refine ⟨s1, s1, ?_, ?_, e4⟩
    · simp only [MemberExpression, hline, hctx, hres, hfun, if_true, h1]
    · have hb : ∃ b, s1.annotationBlocks[index]? = some b ∧ b.fn = some ctxObj := by
        cases hb : s1.annotationBlocks[index]? with
        | none => rw [hb] at e4; simp at e4
        | some b => rw [hb] at e4; exact ⟨b, rfl, by simpa using e4⟩
      obtain ⟨b, hb1, hb2⟩ := hb
      simp only [CallExpression, e1, e2, hcall, hline, hb1, hb2, Option.isNone_some,
        Bool.false_eq_true, if_false]
  · have hb : s.annotationBlocks[index]? = some (s.annotationBlocks[index]) :=
      List.getElem?_eq_getElem hidx
    have hc : ∃ s1, CallExpression s cstart callee = .ok s1 ∧ s1.source = s.source ∧
        s1.annotatedLines = s.annotatedLines ∧
        s1.annotationBlocks.length = s.annotationBlocks.length := by
      by_cases hn : (s.annotationBlocks[index]).fn.isNone = true
      · obtain ⟨s1, h1, e1, e2, e3, -⟩ :=
          setFn_ok s index ⟨window, callee.name, none⟩ hidx
        exact ⟨s1, by simp only [CallExpression, hcall, hline, hb, hn, if_true, h1], e1, e2, e3⟩
      · exact ⟨s, by simp [CallExpression, hcall, hline, hb, hn], rfl, rfl, rfl⟩
    obtain ⟨s1, h1, e1, e2, e3⟩ := hc
    obtain ⟨s2, h2, -, -, -, e4⟩ := setFn_ok s1 index ctxObj (by omega)
    refine ⟨s1, s2, h1, ?_, e4⟩
    simp only [MemberExpression, e1, e2, hline, hctx, hres, hfun, if_true, h2]
  · intro t t' st c h
    simp only [CallExpression] at h
    cases hi : indexOf t.annotatedLines (acorn.getLineInfo t.source st).line with
    | none =>
      rw [hi] at h
      cases h
      exact ⟨rfl, rfl, fun j b hj _ => hj⟩
    | some i =>
      rw [hi] at h
      cases hb : t.annotationBlocks[i]? with
      | none => simp [hb] at h
      | some b' =>
        by_cases hn : b'.fn.isNone = true
        · simp only [hb, hn, if_true, setFn] at h
          cases h
          refine ⟨rfl, by simp, ?_⟩
          intro j b hj hne
          by_cases hji : i = j
          · subst hji
            rw [hb] at hj
            cases hj
            simp at hn
            exact absurd hn hne
          · simp [List.getElem?_set, hji, hj]
        · simp only [hb, hn, if_false] at h
          cases h
          exact ⟨rfl, rfl, fun j b hj _ => hj⟩

/-- Witness of C9: line 2 of `sourceMemberCall`, `A.b.c = wrap(function(){});`. -/
theorem member_resolution_wins_witness :
    (∃ s1 s2, MemberExpression globalABC stateMemberCall
        (chain 8 "A".toList [(10, "b".toList), (12, "c".toList)]) = .ok s1 ∧
      CallExpression s1 16 (.Identifier 16 "wrap".toList) = .ok s2 ∧
      (s2.annotationBlocks[0]?).map (fun b => b.fn) =
        some (some ⟨.ref 2, some "c".toList, some true⟩)) ∧
    (∃ s1 s2, CallExpression stateMemberCall 16 (.Identifier 16 "wrap".toList) = .ok s1 ∧
      MemberExpression globalABC s1
        (chain 8 "A".toList [(10, "b".toList), (12, "c".toList)]) = .ok s2 ∧
      (s2.annotationBlocks[0]?).map (fun b => b.fn) =
        some (some ⟨.ref 2, some "c".toList, some true⟩)) :=
  ⟨(member_resolution_wins globalABC stateMemberCall
      (chain 8 "A".toList [(10, "b".toList), (12, "c".toList)]) 16 (.Identifier 16 "wrap".toList)
      0 [some "A".toList, some "b".toList, some "c".toList] ⟨.ref 2, some "c".toList, some true⟩
      (by decide) (by decide) (by decide) rfl rfl rfl).1,
   (member_resolution_wins globalABC stateMemberCall
      (chain 8 "A".toList [(10, "b".toList), (12, "c".toList)]) 16 (.Identifier 16 "wrap".toList)
      0 [some "A".toList, some "b".toList, some "c".toList] ⟨.ref 2, some "c".toList, some true⟩
      (by decide) (by decide) (by decide) rfl rfl rfl).2.1⟩

/-- C10, as amended.  Let the text of a comment reported by the parser begin with
`@` once cleaned, and have a parameter section in the form that `reAnnotationParam`
matches, `(` directly followed by `{`, then the shortest text without line break up
to a `}` directly followed by `)`; let `JSON.parse` raise `e` on the text captured
from `{` to `}`.  Then `annotationProcessor` raises `e` on that comment in
every module state, so appends nothing; and `Remarker.process` ends with an error,
calls no handler, and leaves the module state as the comments before this one made
it. -/
theorem malformed_params_abort {α : Type} (jsonParse : Str → Except JsError JVal) (G : Graph)
    (acorn : Acorn) (prev : State) (src : Str) (handlers : Option (Registry α))
    (pre post : List Comment) (c : Comment) (m : ParamMatch) (e : JsError)
    (hparse : (acorn.parse (trimSource src)).comments = pre ++ c :: post)
    (hAt : (cleanText c.block c.text).head? = some '@')
    (hm : matchParam (cleanText c.block c.text) = some m)
    (he : jsonParse m.group1 = .error e) :
    (∀ s, annotationProcessor jsonParse s c.block c.text c.start c.endPos = .error e) ∧
    (process jsonParse G acorn prev src handlers).error.isSome = true ∧
    (process jsonParse G acorn prev src handlers).calls = [] ∧
    (process jsonParse G acorn prev src handlers).state =
      (onComments jsonParse pre ⟨trimSource src, [], [], 0⟩).1 := by
  have hc : ∀ s, annotationProcessor jsonParse s c.block c.text c.start c.endPos = .error e := by
    intro s
    simp only [annotationProcessor, hAt, hm, he, if_true]
  obtain ⟨h1, h2⟩ := onComments_malformed jsonParse pre post c e hc ⟨trimSource src, [], [], 0⟩
  rw [← hparse] at h1 h2
  refine ⟨hc, ?_⟩
  unfold process
  simp only []
  generalize onComments jsonParse (acorn.parse (trimSource src)).comments
    ⟨trimSource src, [], [], 0⟩ = r at h1 h2
  obtain ⟨t, err⟩ := r
  cases err with
  | none => simp at h2
  | some e' => exact ⟨rfl, rfl, h1⟩

/-- Witness of C10: the comment ` @Log({bad})` of `sourceBadParams`. -/
theorem malformed_params_abort_witness :
    (∀ s, annotationProcessor jsonParseSample s false " @Log(\x7bbad\x7d)".toList 0 14
      = .error .SyntaxError) ∧
    (@process Nat jsonParseSample globalFooG (parsedAs parsedBadParams) emptyState
      sourceBadParams none).error.isSome = true ∧
    (@process Nat jsonParseSample globalFooG (parsedAs parsedBadParams) emptyState
      sourceBadParams none).calls = [] ∧
    (@process Nat jsonParseSample globalFooG (parsedAs parsedBadParams) emptyState
      sourceBadParams none).state =
      (onComments jsonParseSample [] ⟨trimSource sourceBadParams, [], [], 0⟩).1 :=
  malformed_params_abort jsonParseSample globalFooG (parsedAs parsedBadParams) emptyState
    sourceBadParams none [] [] ⟨false, " @Log(\x7bbad\x7d)".toList, 0, 14⟩
    ⟨"@Log".toList, "\x7bbad\x7d".toList, []⟩ .SyntaxError rfl (by decide) (by decide) rfl

/-- C10 as stated fails for the comments `// @Log(bad)`, `// @Log({"a":1)` and
`// @Log( {bad})`: each has a parenthesized section that is not valid JSON, but none
that `reAnnotationParam` matches.  Whatever `JSON.parse` does and in every module
state, `annotationProcessor` raises nothing and appends a line and a record, the
record having the whole text after `@` as its name and the empty object as its
params; on `sourceLooseParams` `Remarker.process` ends without error and calls the
`Info` handler on that record. -/
theorem unmatched_params_counterexample :
    (∀ (jsonParse : Str → Except JsError JVal) (s : State),
      annotationProcessor jsonParse s false " @Log(bad)".toList 0 12 =
        .ok { s with
          annotatedLines := s.annotatedLines ++ [(acorn.getLineInfo s.source 12).line + 1]
          annotationBlocks := s.annotationBlocks ++
            [⟨(acorn.getLineInfo s.source 12).line + 1, "Log(bad)".toList, .obj [], none⟩] } ∧
      annotationProcessor jsonParse s false " @Log(\x7b\"a\":1)".toList 0 15 =
        .ok { s with
          annotatedLines := s.annotatedLines ++ [(acorn.getLineInfo s.source 15).line + 1]
          annotationBlocks := s.annotationBlocks ++
            [⟨(acorn.getLineInfo s.source 15).line + 1, "Log(\x7b\"a\":1)".toList, .obj [],
              none⟩] } ∧
      annotationProcessor jsonParse s false " @Log( \x7bbad\x7d)".toList 0 15 =
        .ok { s with
          annotatedLines := s.annotatedLines ++ [(acorn.getLineInfo s.source 15).line + 1]
          annotationBlocks := s.annotationBlocks ++
            [⟨(acorn.getLineInfo s.source 15).line + 1, "Log( \x7bbad\x7d)".toList, .obj [],
              none⟩] }) ∧
    (@process Nat jsonParseSample globalFooG (parsedAs parsedLooseParams) emptyState
      sourceLooseParams none).error = none ∧
    ((@process Nat jsonParseSample globalFooG (parsedAs parsedLooseParams) emptyState
        sourceLooseParams none).calls.map
          (fun c => (c.1, Block.annotation c.2, c.2.line, c.2.fn))) =
      [(.Info, "Log(bad)".toList, 2, some ⟨window, some "foo".toList, none⟩)] := by
  refine ⟨fun jsonParse s => ⟨?_, ?_, ?_⟩, by decide, by decide⟩
  · have e : (cleanText false " @Log(bad)".toList).head? = some '@' := by decide
    have m : matchParam (cleanText false " @Log(bad)".toList) = none := by decide
    have d : (cleanText false " @Log(bad)".toList).drop 1 = "Log(bad)".toList := by decide
    simp only [annotationProcessor, e, m, d, if_true]
  · have e : (cleanText false " @Log(\x7b\"a\":1)".toList).head? = some '@' := by decide
    have m : matchParam (cleanText false " @Log(\x7b\"a\":1)".toList) = none := by decide
    have d : (cleanText false " @Log(\x7b\"a\":1)".toList).drop 1 =
        "Log(\x7b\"a\":1)".toList := by decide
    simp only [annotationProcessor, e, m, d, if_true]
  · have e : (cleanText false " @Log( \x7bbad\x7d)".toList).head? = some '@' := by decide
    have m : matchParam (cleanText false " @Log( \x7bbad\x7d)".toList) = none := by decide
    have d : (cleanText false " @Log( \x7bbad\x7d)".toList).drop 1 =
        "Log( \x7bbad\x7d)".toList := by decide
    simp only [annotationProcessor, e, m, d, if_true]

/-! ## The claims, continued -/

/-- C11.  `Remarker.process` assigns all four module variables before it reads any
of them, so its whole outcome - the handler calls with their records, the error, the
module state left - is the same whatever the module variables held on entry.  And a
second call with the caller's registry as the first call left it (the defaults
merged in) makes the same handler calls as the first. -/
theorem process_independent_of_earlier_state {α : Type}
    (jsonParse : Str → Except JsError JVal) (G : Graph) (parser : Acorn) (prev prev' : State)
    (src : Str) (handlers : Option (Registry α)) :
    process jsonParse G parser prev src handlers = process jsonParse G parser prev' src handlers ∧
    (process jsonParse G parser prev' src
        (some (merge DefaultHandlers (handlers.getD [])))).calls =
      (process jsonParse G parser prev src handlers).calls := by
  refine ⟨rfl, ?_⟩
  unfold process
  simp only [Option.getD_some, merge_DefaultHandlers_idem]

/-- C12.  In every module state reachable within a call of `Remarker.process`, where
`lastIndex` is 0, and after any sequence of earlier calls of `Remarker.getLineInfo`
in any order, the call `Remarker.getLineInfo(source, offset)` returns `line` = 1 + the
number of line breaks that begin before `offset` and `column` = `offset` minus the
index just after the last of them (`offset` when there is none).  The function is
total: the call returns. -/
theorem getLineInfo_any_order (jsonParse : Str → Except JsError JVal) (G : Graph) (src : Str)
    (s : State) (h : Reachable jsonParse G src s) (this : Option Nat)
    (earlier : List (Str × Nat)) (source : Str) (offset : Nat) :
    (getLineInfoCall s (getLineInfoCalls s this earlier) source offset).1 =
      lineInfoSpec source offset := by
  have hs := (lastIndex_of_reachable jsonParse G src s h).2
  simp only [getLineInfoCall, getLineInfo, hs, getLineInfoFrom_zero]

/-- Witness of C12: in the state `stateInfo`, reached on `sourceInfo`, offset 9 of
`sourceBlankLine` is asked after offsets 20 and 3. -/
theorem getLineInfo_any_order_witness :
    (getLineInfoCall stateInfo
        (getLineInfoCalls stateInfo none [(sourceBlankLine, 20), (sourceBlankLine, 3)])
        sourceBlankLine 9).1 = lineInfoSpec sourceBlankLine 9 ∧
    lineInfoSpec sourceBlankLine 9 = ⟨3, 0⟩ :=
  ⟨getLineInfo_any_order jsonParseSample globalFooG sourceInfo stateInfo
    (Reachable.comment _ stateInfo false " @Info".toList 0 8 (Reachable.init emptyState) rfl)
    none [(sourceBlankLine, 20), (sourceBlankLine, 3)] sourceBlankLine 9, by decide⟩

/-- C13, the code at the failing input: in `stateVarFunction` line 2 is the only
annotated line, and the node `var g = function(){}` of `sourceVarFunction` starts,
as does its function expression, on line 3.  The `VariableDeclaration` visit does
not leave the two arrays as they were: it empties both. -/
theorem VariableDeclaration_unannotated_changes_state :
    stateVarFunction.annotatedLines = [2] ∧
    (acorn.getLineInfo stateVarFunction.source 25).line = 3 ∧
    (acorn.getLineInfo stateVarFunction.source 33).line = 3 ∧
    (match VariableDeclaration globalFooG stateVarFunction
        [⟨.Identifier 29 "g".toList, some (.FunctionExpression 33)⟩] with
      | .ok t => some (t.annotatedLines, t.annotationBlocks.length)
      | .error _ => none) = some ([], 0) := by
  decide

/-- C19, the code at the failing input.  A declarator without initialiser has
`decl.init === null`, and line 285 reads `decl.init.properties`: for every object
graph, module state and declaration list that holds such a declarator, the
`VariableDeclaration` visit raises a TypeError; on the source `var x;`
`Remarker.process` ends with that error. -/
theorem VariableDeclaration_no_init_raises (G : Graph) (s : State)
    (pre post : List VariableDeclarator) (id : Expr) :
    VariableDeclaration G s (pre ++ ⟨id, none⟩ :: post) = .error .TypeError ∧
    (@process Nat jsonParseSample globalFooG (parsedAs parsedNoInit) emptyState
      sourceNoInit none).error = some .TypeError := by
  refine ⟨?_, by decide⟩
  simp only [VariableDeclaration, declarationsLoop_no_init]

/-- C20, the code at the failing input `sourceBlankLine`: the record of `// @Log`
targets line 2, no declaration starts there, and the record stays in
`annotationBlocks` with `fn` unset; the dispatch loop calls the default `Info`
handler on it, which reads `block.fn.name` and raises a TypeError. -/
theorem dispatch_Info_raises_on_unresolved :
    ((@process Nat jsonParseSample globalFooG (parsedAs parsedBlankLine) emptyState
        sourceBlankLine none).calls.map (fun c => (c.1, c.2.line, c.2.fn))) =
      [(.Info, 2, none)] ∧
    (@process Nat jsonParseSample globalFooG (parsedAs parsedBlankLine) emptyState
      sourceBlankLine none).error = some .TypeError := by
  decide

/-- C14, as amended.  For every object graph, root and path `[s1, ..., sk, leaf]`
such that following `s1`, ..., `sk` in turn from the root finds an object at every
step, `getFunctionContext` returns that last object as `context` and reports
`isFunction = true` exactly when its `leaf` property is a function.  A segment that
is `undefined` on the object reached so far is not a failure: it is skipped, and the
lookup goes on from that object with the rest of the path. -/
theorem getFunctionContext_follows_existing (G : Graph) (root : Val) (keys : List Str)
    (leaf : Str) (id : Nat) (h : evalPath G root keys = some (.ref id)) :
    getFunctionContext G (.value root) (.array ((keys ++ [leaf]).map some)) =
      .ok ⟨.ref id, some leaf, some (typeofFunction G (G.get id leaf))⟩ ∧
    ∀ (oid : Nat) (k : Str) (rest : List Key), rest ≠ [] → G.get oid k = .undefined →
      getFunctionContext G (.value (.ref oid)) (.array (some k :: rest)) =
        getFunctionContext G (.value (.ref oid)) (.array rest) :=
  ⟨getFunctionContext_value_path G root keys leaf id h,
   fun oid k rest hrest hk => getFunctionContext_skips_missing G oid k rest hrest hk⟩

/-- Witness of C14 as amended: the path `[A, b, c]` from `window` in `globalABC`. -/
theorem getFunctionContext_follows_existing_witness :
    getFunctionContext globalABC (.value window)
        (.array ((["A".toList, "b".toList] ++ ["c".toList]).map some)) =
      .ok ⟨.ref 2, some "c".toList,
        some (typeofFunction globalABC (globalABC.get 2 "c".toList))⟩ :=
  (getFunctionContext_follows_existing globalABC window ["A".toList, "b".toList] "c".toList 2
    (by decide)).1

/-- C14 as stated fails for the path `[nope, f]` from `window` in `globalF`:
`window.nope` is `undefined`, a missing intermediate segment, and `window.f` is a
function; the loop of lines 36-41 skips `nope` and the path is reported as a function
of `window`. -/
theorem getFunctionContext_missing_segment_counterexample :
    evalPath globalF window ["nope".toList] = some .undefined ∧
    evalPath globalF window ["nope".toList, "f".toList] = none ∧
    getFunctionContext globalF (.value window) (.array [some "nope".toList, some "f".toList]) =
      .ok ⟨window, some "f".toList, some true⟩ :=
  ⟨by decide, by decide, rfl⟩

/-- C15.  For every object literal whose keys, at any depth, are identifiers, the
candidates that the `VariableDeclaration` walk records for the declaration
`var root = {...}` are, in source order, those of the function-valued properties
whose function expression starts on an annotated line, and the `ctxArray` of each is
exactly the keys on the path from the top level of the literal down to the property,
outer to inner, ending with the property's own key: no key of a sibling or of a
sibling's descendants is in it.  Inside `getContextRecursive` the same holds at every
level, after the keys accumulated so far. -/
theorem candidates_carry_their_path (s : State) (rstart lstart : Nat) (root : Str)
    (properties : List (Expr × Expr)) (h : identifierKeysOf properties = true) :
    declarationsLoop s [⟨.Identifier rstart root, some (.ObjectExpression lstart properties)⟩]
        none [] =
      .ok (some root,
        ((propertyPaths properties).filter (fun p =>
            (indexOf s.annotatedLines (acorn.getLineInfo s.source p.2).line).isSome)).map
          (fun p => ⟨(acorn.getLineInfo s.source p.2).line, .array (p.1.map some)⟩)) ∧
    ∀ ctxArray : List Key,
      forProperties s properties ctxArray =
        ((propertyPaths properties).filter (fun p =>
            (indexOf s.annotatedLines (acorn.getLineInfo s.source p.2).line).isSome)).map
          (fun p => ⟨(acorn.getLineInfo s.source p.2).line,
            .array (ctxArray ++ p.1.map some)⟩) := by
  refine ⟨?_, fun ctxArray => members_of_properties s properties ctxArray h⟩
  simp only [declarationsLoop, flatten_members, List.nil_append,
    members_of_properties s properties [] h]

/-- Witness of C15: the literal of `sourceSiblings`; of its four function-valued
properties, `a` and `x.y` are on annotated lines. -/
theorem candidates_carry_their_path_witness :
    (declarationsLoop stateSiblings
        [⟨.Identifier 4 "o".toList, some (.ObjectExpression 8 propertiesSiblings)⟩] none [] =
      .ok (some "o".toList,
        ((propertyPaths propertiesSiblings).filter (fun p =>
            (indexOf stateSiblings.annotatedLines
              (acorn.getLineInfo stateSiblings.source p.2).line).isSome)).map
          (fun p => ⟨(acorn.getLineInfo stateSiblings.source p.2).line,
            .array (p.1.map some)⟩))) ∧
    propertyPaths propertiesSiblings =
      [(["a".toList], 19), (["x".toList, "y".toList], 47), (["x".toList, "w".toList], 70),
       (["b".toList], 89)] ∧
    ((propertyPaths propertiesSiblings).filter (fun p =>
        (indexOf stateSiblings.annotatedLines
          (acorn.getLineInfo stateSiblings.source p.2).line).isSome)) =
      [(["a".toList], 19), (["x".toList, "y".toList], 47)] :=
  ⟨(candidates_carry_their_path stateSiblings 4 8 "o".toList propertiesSiblings (by decide)).1,
   by decide, by decide⟩

/-- C16, the code at the failing input `sourceTwoDeclarators`.  The annotated
function is the property `f` of the literal that initialises `a`, and `a.f` is a
function; but `ctx` is one variable for the whole declaration and holds `b`, the last
declarator, when the candidates are resolved: the record is bound to `b.f`, its
`context` being the object `b`, not `a`. -/
theorem candidate_resolved_against_last_declarator :
    evalPath globalAB window ["a".toList] = some (.ref 1) ∧
    evalPath globalAB window ["a".toList, "f".toList] = some (.ref 2) ∧
    globalAB.isFunction 2 = true ∧
    evalPath globalAB window ["b".toList] = some (.ref 3) ∧
    ((@process Nat jsonParseSample globalAB (parsedAs parsedTwoDeclarators) emptyState
        sourceTwoDeclarators none).state.annotationBlocks.map (fun b => (b.line, b.fn))) =
      [(3, some ⟨.ref 3, some "f".toList, some true⟩)] := by
  decide

/-- C17, the code at the failing input `sourceSameLine`.  The literal holds two
candidates on the annotated line 5, `p` and `q`, and neither path denotes a function.
The first removes the record of line 5; for the second `indexOf` gives `-1`, and
`splice(-1, 1)` removes the last record left, that of line 2, which was bound to
`foo`: no record remains, and `Remarker.process` calls no handler. -/
theorem failed_candidates_remove_other_record :
    (stateSameLine.annotationBlocks.map (fun b => (b.line, b.fn))) =
      [(2, some ⟨window, some "foo".toList, none⟩), (5, none)] ∧
    (match VariableDeclaration globalFooG stateSameLine declarationSameLine with
      | .ok t => some (t.annotatedLines, t.annotationBlocks.map (fun b => b.line))
      | .error _ => none) = some ([], []) ∧
    (@process Nat jsonParseSample globalFooG (parsedAs parsedSameLine) emptyState
      sourceSameLine none).state.annotationBlocks.length = 0 ∧
    (@process Nat jsonParseSample globalFooG (parsedAs parsedSameLine) emptyState
      sourceSameLine none).calls.length = 0 := by
  decide

/-- C18.  In every module state reachable from the initialisation of
`Remarker.process` through calls of `annotationProcessor` and of the visitors of
`astWalker`, in any number and order, `annotatedLines` and `annotationBlocks` have the
same length and `annotatedLines[i] = annotationBlocks[i].line` at every index `i`. -/
theorem arrays_stay_aligned (jsonParse : Str → Except JsError JVal) (G : Graph) (src : Str)
    (s : State) (h : Reachable jsonParse G src s) :
    s.annotatedLines.length = s.annotationBlocks.length ∧
    ∀ i : Nat, s.annotatedLines[i]? = (s.annotationBlocks[i]?).map (fun r => r.line) := by
  have ha := aligned_of_reachable jsonParse G src s h
  refine ⟨by rw [ha, List.length_map], fun i => ?_⟩
  rw [ha, List.getElem?_map]

/-- Witness of C18: `stateInfo`, reached on `sourceInfo` by the initialisation and
the call of `annotationProcessor` on its comment. -/
theorem arrays_stay_aligned_witness :
    stateInfo.annotatedLines.length = stateInfo.annotationBlocks.length ∧
    ∀ i : Nat, stateInfo.annotatedLines[i]? =
      (stateInfo.annotationBlocks[i]?).map (fun r => r.line) :=
  arrays_stay_aligned jsonParseSample globalFooG sourceInfo stateInfo
    (Reachable.comment _ stateInfo false " @Info".toList 0 8 (Reachable.init emptyState) rfl)

end Remarker
